import Mathlib

/-!
Shallow embedding of `src/markov_chain.rs` from markov-telegram-bot-rs
(the `TripletMarkovChain` engine) and proofs about it.

Modelling conventions:
* Rust `String` tokens are modelled as `List Char` (`Str`); the engine is
  exercised on ASCII data, so `Char.toLower` / `Char.isAlphanum` model
  Rust's `to_lowercase` / `is_alphanumeric` faithfully on the relevant inputs.
* Rust `HashMap`/`HashSet` are modelled as association lists / lists with
  lookup-by-key semantics; `HashMap` guarantees key uniqueness, so list
  order is the only (irrelevant) representation difference, and iteration
  order — unspecified for `HashMap` — is the list order.
* The RNG (`rand::thread_rng().gen_range(0..total)`) is externalized: each
  draw consumes one `Nat` from an explicit stream and is reduced modulo the
  running total, which realizes exactly the in-range values `gen_range` can
  produce.  Quantifying over the stream quantifies over all random outcomes.
* Rust panics (`unwrap` on a missing key, `gen_range` on an empty range) are
  modelled by `Option` (`none` = panic) where a claim is about the panic, and
  otherwise by harmless default values on branches unreachable for the chain
  states the corresponding theorems quantify over.
* The recursion of `generate_internal` is genuinely unbounded in the source
  (cyclic chains exist), so the embedding adds an explicit fuel parameter;
  running out of fuel produces the same failure value as an exhausted branch.
  All theorems about successful (`ok`) runs quantify over the fuel.
-/

namespace Markov

/-- Tokens are Rust strings, modelled as lists of characters. -/
abbrev Str := List Char

/-- Convenience conversion from Lean string literals to the token model. -/
def strL (s : String) : Str := s.data

/-- Counters are signed 64-bit in the source (`pub type Counter = i64`);
modelled as `Int` (no claim exercises overflow). -/
abbrev Counter := Int

/-- Source `encode_db_field_name`: MongoDB 4 doesn't let field names start
with `'$'`, so a leading `'$'` gets a `'\'` prepended
(`s.starts_with('$')` is `head? = some '$'`). -/
def encode_db_field_name (s : Str) : Str :=
  if s.head? = some '$' then '\\' :: s else s

/-- Source `decode_db_field_name`: strips the escape character again
(`s.starts_with("\\$")` is `take 2 = ['\\', '$']`; `substring(1, len)` is
`drop 1`). -/
def decode_db_field_name (s : Str) : Str :=
  if s.take 2 = ['\\', '$'] then s.drop 1 else s

/-- Rust `str::to_lowercase` (ASCII-faithful). -/
def to_lowercase (s : Str) : Str := s.map Char.toLower

/-- Rust `trim_matches(|c| !c.is_alphanumeric())`: strips leading and
trailing non-alphanumeric characters. -/
def trim_non_alphanumeric (s : Str) : Str :=
  ((s.dropWhile fun c => !c.isAlphanum).reverse.dropWhile fun c => !c.isAlphanum).reverse

/-- Source `get_associated_seeds_encoded`: the `HashSet` of the two encoded
normalizations (lower-cased, and lower-cased-and-trimmed) of a word.  The
set is modelled as a deduplicated list. -/
def get_associated_seeds_encoded (decoded_word : Str) : List Str :=
  let lowercase_encoded := encode_db_field_name (to_lowercase decoded_word)
  let cleaned_encoded := encode_db_field_name (trim_non_alphanumeric (to_lowercase decoded_word))
  if lowercase_encoded = cleaned_encoded then [lowercase_encoded]
  else [lowercase_encoded, cleaned_encoded]

/-- Source `pair_to_string`: join with a single space, then encode. -/
def pair_to_string (pair : Str × Str) : Str :=
  encode_db_field_name (pair.1 ++ ' ' :: pair.2)

/-- Source `string_to_pair`: split at the first space.  The source panics
when no space is present; that branch is unreachable for keys produced by
`pair_to_string` and is modelled by `(s, [])`. -/
def string_to_pair (s : Str) : Str × Str :=
  if ' ' ∈ s then
    (s.takeWhile fun c => c ≠ ' ', (s.dropWhile fun c => c ≠ ' ').drop 1)
  else (s, [])

/-- Accumulator-style tokenizer; `cur` holds the current token reversed. -/
def split_whitespace_go (cur : Str) : Str → List Str
  | [] => if cur = [] then [] else [cur.reverse]
  | c :: rest =>
    if c.isWhitespace then
      if cur = [] then split_whitespace_go [] rest
      else cur.reverse :: split_whitespace_go [] rest
    else split_whitespace_go (c :: cur) rest

/-- Rust `str::split_whitespace`: whitespace-separated tokens, no empties. -/
def split_whitespace (s : Str) : List Str := split_whitespace_go [] s

/-- Association-list lookup, modelling `HashMap::get`. -/
def lookupA {α β : Type} [DecidableEq α] (k : α) : List (α × β) → Option β
  | [] => none
  | (a, b) :: rest => if a = k then some b else lookupA k rest

/-- Association-list insert-or-replace, modelling `HashMap::insert`. -/
def insertA {α β : Type} [DecidableEq α] (k : α) (v : β) : List (α × β) → List (α × β)
  | [] => [(k, v)]
  | (a, b) :: rest => if a = k then (k, v) :: rest else (a, b) :: insertA k v rest

/-- Association-list removal, modelling `HashMap::remove` (keys are unique
in a `HashMap`, so removing every occurrence is the same operation). -/
def eraseA {α β : Type} [DecidableEq α] (k : α) (m : List (α × β)) : List (α × β) :=
  m.filter fun e => e.1 ≠ k

/-- Set insert, modelling `HashSet::insert`. -/
def insertS (k : Str) (set : List Str) : List Str :=
  if k ∈ set then set else set ++ [k]

/-- Set removal, modelling `HashSet::remove`. -/
def eraseS (k : Str) (set : List Str) : List Str :=
  set.filter fun x => x ≠ k

/-- Source `TripletMarkovChain`: the ContextTable (`data`) and the
SeedIndex (`meta`). -/
structure TripletMarkovChain where
  data : List (Str × List (Str × Counter))
  meta : List (Str × List Str)
deriving DecidableEq

/-- The `Default` instance of the source (both maps empty). -/
def default_chain : TripletMarkovChain := ⟨[], []⟩

/-- Source `MarkovChainError`. -/
inductive MarkovChainError
  | Empty
  | NoSuchSeed
  | LengthRequirementInvalid
  | CannotMeetLengthRequirement
deriving DecidableEq

/-- Source `ComparisonOperator`. -/
inductive ComparisonOperator
  | LessThan
  | LessThanOrEqualTo
  | EqualTo
  | GreaterThan
  | GreaterThanOrEqualTo
deriving DecidableEq

/-- Source `LengthRequirement` (`value` is `i32`; modelled as `Int`). -/
structure LengthRequirement where
  value : Int
  comparison_operator : ComparisonOperator
deriving DecidableEq

/-- Source `LengthRequirement::is_valid`. -/
def LengthRequirement.is_valid (lr : LengthRequirement) : Bool :=
  match lr.comparison_operator with
  | .LessThan => decide (lr.value > 1)
  | .LessThanOrEqualTo => decide (lr.value > 0)
  | .EqualTo => decide (lr.value > 0)
  | .GreaterThan => decide (lr.value > 0)
  | .GreaterThanOrEqualTo => decide (lr.value > 1)

/-- Source `LengthRequirement::difference`. -/
def LengthRequirement.difference (lr : LengthRequirement) (n : Int) : Int :=
  match lr.comparison_operator with
  | .LessThan => lr.value - n - 1
  | .LessThanOrEqualTo => lr.value - n
  | .EqualTo => lr.value - n
  | .GreaterThan => lr.value - n + 1
  | .GreaterThanOrEqualTo => lr.value - n

/-- Source `LengthRequirement::is_satisfied_by`. -/
def LengthRequirement.is_satisfied_by (lr : LengthRequirement) (n : Int) : Bool :=
  match lr.comparison_operator with
  | .LessThan => decide (n < lr.value)
  | .LessThanOrEqualTo => decide (n ≤ lr.value)
  | .EqualTo => decide (n = lr.value)
  | .GreaterThan => decide (n > lr.value)
  | .GreaterThanOrEqualTo => decide (n ≥ lr.value)

/-- One step of the SeedIndex bookkeeping in `add_word_triplet`: record
`key` under seed `sd` (empty seeds are skipped by the source). -/
def register_seed (key : Str) (m : List (Str × List Str)) (sd : Str) : List (Str × List Str) :=
  if sd = [] then m
  else
    match lookupA sd m with
    | some set => insertA sd (insertS key set) m
    | none => insertA sd [key] m

/-- Source `TripletMarkovChain::add_word_triplet`. -/
def add_word_triplet (chain : TripletMarkovChain) (pair : Str × Str) (third : Str) :
    TripletMarkovChain :=
  let pair_string_encoded := pair_to_string pair
  let third_encoded := encode_db_field_name third
  let data :=
    match lookupA pair_string_encoded chain.data with
    | some word_map =>
      match lookupA third_encoded word_map with
      | some count =>
        insertA pair_string_encoded (insertA third_encoded (count + 1) word_map) chain.data
      | none =>
        insertA pair_string_encoded (insertA third_encoded 1 word_map) chain.data
    | none => insertA pair_string_encoded [(third_encoded, 1)] chain.data
  let meta := (get_associated_seeds_encoded pair.2).foldl (register_seed pair_string_encoded) chain.meta
  ⟨data, meta⟩

/-- The SeedIndex cleanup loop of `remove_word_triplet`; `none` models the
source's `unwrap` panic when a seed is not present in the meta map. -/
def prune_meta (key : Str) : List Str → List (Str × List Str) → Option (List (Str × List Str))
  | [], m => some m
  | sd :: rest, m =>
    match lookupA sd m with
    | none => none
    | some set =>
      let set2 := eraseS key set
      prune_meta key rest (if set2 = [] then eraseA sd m else insertA sd set2 m)

/-- Source `TripletMarkovChain::remove_word_triplet`; `none` models the
`unwrap` panic in the SeedIndex cleanup. -/
def remove_word_triplet (chain : TripletMarkovChain) (pair : Str × Str) (third : Str)
    (amount : Counter) : Option TripletMarkovChain :=
  let pair_string_encoded := pair_to_string pair
  let third_encoded := encode_db_field_name third
  match lookupA pair_string_encoded chain.data with
  | none => some chain
  | some word_map =>
    match lookupA third_encoded word_map with
    | none => some chain
    | some count =>
      if count - amount > 0 then
        some ⟨insertA pair_string_encoded (insertA third_encoded (count - amount) word_map)
          chain.data, chain.meta⟩
      else
        let word_map2 := eraseA third_encoded word_map
        if word_map2 = [] then
          match prune_meta pair_string_encoded (get_associated_seeds_encoded pair.2) chain.meta with
          | none => none
          | some meta => some ⟨eraseA pair_string_encoded chain.data, meta⟩
        else
          some ⟨insertA pair_string_encoded word_map2 chain.data, chain.meta⟩

/-- Source `TripletMarkovChain::remove_markov_chain`: removes every
recorded (context, successor, count) triple of `other`; `none` = panic. -/
def remove_markov_chain (chain other : TripletMarkovChain) : Option TripletMarkovChain :=
  other.data.foldlM
    (fun c entry =>
      entry.2.foldlM (fun c2 wc => remove_word_triplet c2 (string_to_pair entry.1) wc.1 wc.2) c)
    chain

/-- The `for word in words` loop of `add_message`: the state is the chain
so far together with `last_pair`. -/
def add_message_loop (st : TripletMarkovChain × (Str × Str)) (ws : List Str) :
    TripletMarkovChain × (Str × Str) :=
  ws.foldl (fun st word => (add_word_triplet st.1 st.2 word, (st.2.2, word))) st

/-- Source `TripletMarkovChain::add_message`: tokenize and slide the
triplet window, exactly mirroring the source's loop over `last_pair`
followed by the two closing `add_word_triplet` calls. -/
def add_message (chain : TripletMarkovChain) (text : Str) : TripletMarkovChain :=
  match split_whitespace text with
  | [] => chain
  | w :: ws =>
    let st := add_message_loop (chain, ([], [])) (w :: ws)
    let chain1 := add_word_triplet st.1 st.2 []
    add_word_triplet chain1 (st.2.2, []) []

/-- Folding a list of (context, successor) windows into the chain; the
specification describes `add_message` as this fold over the padded
window list. -/
def add_triplets (chain : TripletMarkovChain) (ws : List ((Str × Str) × Str)) :
    TripletMarkovChain :=
  ws.foldl (fun c pt => add_word_triplet c pt.1 pt.2) chain

/-- The cumulative-bucket scan of `choose_from_frequency_map`. -/
def choose_go {α : Type} (r : Int) : Int → List (α × Counter) → Option α
  | _, [] => none
  | acc, (x, c) :: rest => if r < acc + c then some x else choose_go r (acc + c) rest

/-- Source `choose_from_frequency_map`.  `raw` externalizes the RNG draw:
`gen_range(0..running_total)` yields exactly the values `raw % running_total`
ranges over.  `none` models the panics (`gen_range` on an empty/invalid
range, or the unreachable fall-through). -/
def choose_from_frequency_map {α : Type} (map : List (α × Counter)) (raw : Nat) : Option α :=
  let running_total : Int := (map.map fun e => e.2).sum
  if running_total ≤ 0 then none
  else choose_go ((raw : Int) % running_total) 0 map

/-- The draw-without-replacement loop of
`get_connections_in_weighted_random_order`; the fuel is the map size, which
the loop consumes exactly. -/
def connections_loop (second_encoded : Str) :
    Nat → List (Str × Counter) → List Nat → List (Str × Str) × List Nat
  | 0, _, s => ([], s)
  | n + 1, word_map, s =>
    if word_map = [] then ([], s)
    else
      match choose_from_frequency_map word_map (s.headD 0) with
      | none => ([], s.drop 1)
      | some selected =>
        let rest := connections_loop second_encoded n (eraseA selected word_map) (s.drop 1)
        ((second_encoded, decode_db_field_name selected) :: rest.1, rest.2)

/-- Source `TripletMarkovChain::get_connections_in_weighted_random_order`. -/
def get_connections_in_weighted_random_order (chain : TripletMarkovChain) (pair : Str × Str)
    (s : List Nat) : List (Str × Str) × List Nat :=
  match lookupA (pair_to_string pair) chain.data with
  | some word_map => connections_loop (encode_db_field_name pair.2) word_map.length word_map s
  | none => ([], s)

/-- The pruning test at the head of `generate_internal`. -/
def prune_check : Option LengthRequirement → Bool → Int → Bool
  | none, _, _ => false
  | some lr, at_path_end, n =>
    if lr.is_satisfied_by n then false
    else decide (lr.difference n < 0) || (at_path_end && decide (lr.difference n > 0))

/-- The `for pair in queue` loop of `generate_internal`, parameterized by
the recursive call `next`. -/
def try_queue (next : Str × Str → Int → List Nat → Except MarkovChainError (List Str) × List Nat)
    (second : Str) (is_real : Bool) (current_length : Int) :
    List (Str × Str) → List Nat → Except MarkovChainError (List Str) × List Nat
  | [], s => (.error .CannotMeetLengthRequirement, s)
  | p :: rest, s =>
    match next p (current_length + if is_real then 1 else 0) s with
    | (.ok tail, s2) => (.ok (if is_real then second :: tail else tail), s2)
    | (.error _, s2) => try_queue next second is_real current_length rest s2

/-- Source `TripletMarkovChain::generate_internal`, with explicit fuel
(the source's recursion can diverge on cyclic chains; fuel exhaustion
fails like an exhausted branch). -/
def generate_internal (chain : TripletMarkovChain)
    (length_requirement : Option LengthRequirement) :
    Nat → Str × Str → Int → List Nat → Except MarkovChainError (List Str) × List Nat
  | 0, _, _, s => (.error .CannotMeetLengthRequirement, s)
  | fuel + 1, start, current_length, s =>
    let at_path_end : Bool := start.1 != [] && start.2 == []
    if prune_check length_requirement at_path_end current_length then
      (.error .CannotMeetLengthRequirement, s)
    else if at_path_end then (.ok [], s)
    else
      let is_real : Bool := start.2 != []
      let q := get_connections_in_weighted_random_order chain start s
      try_queue (generate_internal chain length_requirement fuel) start.2 is_real
        current_length q.1 q.2

/-- The `while !starts.is_empty()` loop of `generate`; the loop counter is
the size of the starting multiset, which the loop consumes exactly. -/
def starts_loop (chain : TripletMarkovChain) (length_requirement : Option LengthRequirement)
    (fuel : Nat) : Nat → List ((Str × Str) × Counter) → List Nat →
    Except MarkovChainError (List Str)
  | 0, _, _ => .error .CannotMeetLengthRequirement
  | n + 1, starts, s =>
    if starts = [] then .error .CannotMeetLengthRequirement
    else
      match choose_from_frequency_map starts (s.headD 0) with
      | none => .error .CannotMeetLengthRequirement
      | some start =>
        match generate_internal chain length_requirement fuel start 0 (s.drop 1) with
        | (.ok path, _) => .ok path
        | (.error _, s2) => starts_loop chain length_requirement fuel n (eraseA start starts) s2

/-- The seed-branch construction of the weighted starting-context map:
every `data` key registered under the seed, weighted by the sum of its
successor counts (`data.get(key).unwrap()`; the unreachable-on-consistent-
chains panic is modelled by an empty map defaulting the sum to 0). -/
def build_starts (chain : TripletMarkovChain) (key_set : List Str) :
    List ((Str × Str) × Counter) :=
  key_set.foldl
    (fun fm key =>
      insertA (string_to_pair key) ((((lookupA key chain.data).getD []).map fun e => e.2).sum) fm)
    []

/-- Source `TripletMarkovChain::generate`. -/
def generate (chain : TripletMarkovChain) (seed : Option Str)
    (length_requirement : Option LengthRequirement) (fuel : Nat) (s : List Nat) :
    Except MarkovChainError (List Str) :=
  if chain.data = [] then .error .Empty
  else if (match length_requirement with
      | some lr => !lr.is_valid
      | none => false) then .error .LengthRequirementInvalid
  else
    match seed with
    | some word =>
      let word_encoded := encode_db_field_name (to_lowercase word)
      match lookupA word_encoded chain.meta with
      | none => .error .NoSuchSeed
      | some key_set =>
        let starts := build_starts chain key_set
        starts_loop chain length_requirement fuel starts.length starts s
    | none => starts_loop chain length_requirement fuel 1 [(([], []), 1)] s

/-- Sliding window of width three over a list, as `((a, b), c)` triples;
`windows3 (ε :: ε :: ts ++ [ε, ε])` is the padded triplet-window list that
the specification describes for `add_message`. -/
def windows3 : List Str → List ((Str × Str) × Str)
  | a :: b :: c :: rest => ((a, b), c) :: windows3 (b :: c :: rest)
  | _ => []


/-- The conjunction of the ContextTable and SeedIndex invariants of the
specification: every stored distribution is non-empty; every data key is
registered in the meta map under each non-empty normalization of its second
token; meta entries are non-empty and hold only live data keys, each under a
normalization of that key's second token. -/
def chain_inv (chain : TripletMarkovChain) : Prop :=
  (∀ e ∈ chain.data, e.2 ≠ []) ∧
  (∀ e ∈ chain.data, ∀ sd ∈ get_associated_seeds_encoded (string_to_pair e.1).2,
    sd ≠ [] → e.1 ∈ (lookupA sd chain.meta).getD []) ∧
  (∀ e ∈ chain.meta, e.2 ≠ []) ∧
  (∀ e ∈ chain.meta, ∀ k ∈ e.2,
    (lookupA k chain.data).isSome = true ∧
    e.1 ∈ get_associated_seeds_encoded (string_to_pair k).2 ∧ e.1 ≠ [])

/-- The `HashMap` representation invariant of the two maps: keys are unique
(association lists never shadow an entry). -/
def wf_maps (chain : TripletMarkovChain) : Prop :=
  (chain.data.map Prod.fst).Nodup ∧ (chain.meta.map Prod.fst).Nodup

/-- The facts about chains built by `add_message` that make every `ok`
generation non-empty: the initial context `(ε, ε)` has no `ε` successor,
and every key registered in the meta map has a non-`ε` second component. -/
def gen_seed_inv (chain : TripletMarkovChain) : Prop :=
  (∀ e ∈ (lookupA (pair_to_string ([], [])) chain.data).getD [], e.1 ≠ ([] : Str)) ∧
  (∀ e ∈ chain.meta, e.2 ≠ [] ∧ ∀ k ∈ e.2, (string_to_pair k).2 ≠ [])

instance {ε α : Type} [DecidableEq ε] [DecidableEq α] : DecidableEq (Except ε α)
  | .error e, .error f =>
    if h : e = f then .isTrue (by rw [h]) else .isFalse (by simp [h])
  | .error _, .ok _ => .isFalse (by simp)
  | .ok _, .error _ => .isFalse (by simp)
  | .ok x, .ok y =>
    if h : x = y then .isTrue (by rw [h]) else .isFalse (by simp [h])

/-! ### FieldCodec lemmas -/

theorem encode_head_ne (s : Str) (h : s.head? ≠ some '$') : encode_db_field_name s = s := by
  simp [encode_db_field_name, h]

theorem encode_nil_iff (s : Str) : encode_db_field_name s = [] ↔ s = [] := by
  unfold encode_db_field_name
  split
  · rename_i h
    cases s <;> simp_all
  · simp

theorem decode_nil_iff (s : Str) : decode_db_field_name s = [] ↔ s = [] := by
  unfold decode_db_field_name
  split
  · rename_i h
    cases s with
    | nil => simp at h
    | cons c rest =>
      cases rest with
      | nil => simp at h
      | cons c2 rest2 => simp_all
  · simp

/-! ### `C8`: the codec is a two-sided inverse on valid tokens -/

/-- `C8`: `encode_db_field_name` and `decode_db_field_name` form a
two-sided inverse on tokens not beginning with the escape character `'\'`:
decoding after encoding is the identity there, every string in the image of
`encode_db_field_name` is fixed by encode-after-decode, and encoding is the
identity on tokens that do not begin with the reserved prefix `'$'`. -/
theorem C8_codec_two_sided_inverse (t : Str) :
    (t.head? ≠ some '\\' →
      decode_db_field_name (encode_db_field_name t) = t) ∧
    (encode_db_field_name (decode_db_field_name (encode_db_field_name t)) =
      encode_db_field_name t) ∧
    (t.head? ≠ some '$' → encode_db_field_name t = t) := by
  refine ⟨?_, ?_, fun h => encode_head_ne t h⟩
  · intro h
    by_cases hd : t.head? = some '$'
    · obtain ⟨r, rfl⟩ : ∃ r, t = '$' :: r := by
        cases t with
        | nil => simp at hd
        | cons c r => simp at hd; exact ⟨r, by simp [hd]⟩
      simp [encode_db_field_name, decode_db_field_name]
    · rw [encode_head_ne t hd]
      unfold decode_db_field_name
      split
      · rename_i h2
        cases t with
        | nil => simp at h2
        | cons c rest =>
          cases rest with
          | nil => simp at h2
          | cons c2 rest2 =>
            simp at h2
            simp [h2.1] at h
      · rfl
  · by_cases hd : t.head? = some '$'
    · obtain ⟨r, rfl⟩ : ∃ r, t = '$' :: r := by
        cases t with
        | nil => simp at hd
        | cons c r => simp at hd; exact ⟨r, by simp [hd]⟩
      simp [encode_db_field_name, decode_db_field_name]
    · rw [encode_head_ne t hd]
      unfold decode_db_field_name
      split
      · rename_i h2
        cases t with
        | nil => simp at h2
        | cons c rest =>
          cases rest with
          | nil => simp at h2
          | cons c2 rest2 =>
            simp at h2
            obtain ⟨rfl, rfl, -⟩ := h2
            simp [encode_db_field_name]
      · rw [encode_head_ne t hd]

/-! ### `C9`: `add_message` is the fold over the padded window list -/

theorem windows3_cons (a b c : Str) (rest : List Str) :
    windows3 (a :: b :: c :: rest) = ((a, b), c) :: windows3 (b :: c :: rest) := rfl

theorem windows3_length (l : List Str) : ∀ a b, (windows3 (a :: b :: l)).length = l.length := by
  induction l with
  | nil => intro a b; rfl
  | cons c r ih => intro a b; rw [windows3_cons]; simp [ih]

theorem add_triplets_cons (chain : TripletMarkovChain) (pt : (Str × Str) × Str)
    (l : List ((Str × Str) × Str)) :
    add_triplets chain (pt :: l) = add_triplets (add_word_triplet chain pt.1 pt.2) l := rfl

theorem add_message_loop_windows (ws : List Str) :
    ∀ (c : TripletMarkovChain) (a b : Str),
      add_word_triplet
        (add_word_triplet (add_message_loop (c, (a, b)) ws).1 (add_message_loop (c, (a, b)) ws).2 [])
        ((add_message_loop (c, (a, b)) ws).2.2, []) []
      = add_triplets c (windows3 (a :: b :: ws ++ [[], []])) := by
  induction ws with
  | nil => intro c a b; rfl
  | cons w ws ih =>
    intro c a b
    have hstep : add_message_loop (c, (a, b)) (w :: ws) =
        add_message_loop (add_word_triplet c (a, b) w, (b, w)) ws := rfl
    rw [hstep]
    have hw : windows3 (a :: b :: (w :: ws) ++ [[], []]) =
        ((a, b), w) :: windows3 (b :: w :: ws ++ [[], []]) := rfl
    rw [hw, add_triplets_cons]
    exact ih (add_word_triplet c (a, b) w) b w

/-- `C9`: `add_message` splits on whitespace; with zero tokens the chain is
unchanged, and with tokens `t1..tn` it performs exactly the `n + 2`
context/successor updates obtained by sliding a window over the padded
sequence `ε, ε, t1, …, tn, ε, ε`. -/
theorem C9_add_message_is_window_fold (chain : TripletMarkovChain) (text : Str) :
    (split_whitespace text = [] → add_message chain text = chain) ∧
    (∀ w ws, split_whitespace text = w :: ws →
      add_message chain text = add_triplets chain (windows3 ([] :: [] :: (w :: ws) ++ [[], []])) ∧
      (windows3 ([] :: [] :: (w :: ws) ++ [[], []])).length = (w :: ws).length + 2) := by
  constructor
  · intro h
    simp [add_message, h]
  · intro w ws h
    refine ⟨?_, ?_⟩
    · show (match split_whitespace text with
        | [] => chain
        | w :: ws =>
          let st := add_message_loop (chain, ([], [])) (w :: ws)
          let chain1 := add_word_triplet st.1 st.2 []
          add_word_triplet chain1 (st.2.2, []) []) = _
      rw [h]
      exact add_message_loop_windows (w :: ws) chain [] []
    · have := windows3_length ((w :: ws) ++ [[], []]) [] []
      simp at this
      simp [this]

/-- `C9` witness: the window fold evaluated on the concrete message
`"one two three"`. -/
theorem C9_witness :
    split_whitespace (strL "one two three") = [strL "one", strL "two", strL "three"] ∧
    add_message default_chain (strL "one two three") =
      add_triplets default_chain
        (windows3 ([] :: [] :: [strL "one", strL "two", strL "three"] ++ [[], []])) ∧
    (windows3 ([] :: [] :: [strL "one", strL "two", strL "three"] ++ [[], []])).length = 5 := by
  refine ⟨by decide, ?_⟩
  have h := (C9_add_message_is_window_fold default_chain (strL "one two three")).2
    (strL "one") [strL "two", strL "three"] (by decide)
  exact ⟨h.1, h.2⟩

/-! ### `C6`: empty chain always yields `Empty` -/

/-- `C6`: on a chain whose `data` map is empty, `generate` returns
`Empty` for every seed and length-requirement argument; the check precedes
length-requirement validation. -/
theorem C6_generate_empty_chain (chain : TripletMarkovChain) (seed : Option Str)
    (lr : Option LengthRequirement) (fuel : Nat) (s : List Nat)
    (h : chain.data = []) : generate chain seed lr fuel s = .error .Empty := by
  simp [generate, h]

/-- `C6` witness: the untrained chain with an invalid length requirement
still reports `Empty`. -/
theorem C6_witness :
    default_chain.data = [] ∧
    (LengthRequirement.is_valid ⟨0, .EqualTo⟩ = false) ∧
    generate default_chain (some (strL "word")) (some ⟨0, .EqualTo⟩) 5 [] = .error .Empty :=
  ⟨rfl, rfl,
    C6_generate_empty_chain default_chain (some (strL "word")) (some ⟨0, .EqualTo⟩) 5 [] rfl⟩

/-! ### Shape of `generate` results -/

theorem starts_loop_ok_or_cannot (chain : TripletMarkovChain)
    (lr : Option LengthRequirement) (fuel : Nat) :
    ∀ (n : Nat) (starts : List ((Str × Str) × Counter)) (s : List Nat),
      (∃ v, starts_loop chain lr fuel n starts s = .ok v) ∨
      starts_loop chain lr fuel n starts s = .error .CannotMeetLengthRequirement := by
  intro n
  induction n with
  | zero => intro starts s; right; rfl
  | succ n ih =>
    intro starts s
    simp only [starts_loop]
    split
    · right; rfl
    · split
      · right; rfl
      · split
        · rename_i v hv
          left; exact ⟨_, rfl⟩
        · exact ih _ _

theorem generate_shape (chain : TripletMarkovChain) (seed : Option Str)
    (lr : Option LengthRequirement) (fuel : Nat) (s : List Nat)
    (hne : chain.data ≠ [])
    (hv : (match lr with | some l => !l.is_valid | none => false) = false) :
    (∃ v, generate chain seed lr fuel s = .ok v) ∨
    generate chain seed lr fuel s = .error .CannotMeetLengthRequirement ∨
    (generate chain seed lr fuel s = .error .NoSuchSeed ∧
      ∃ w, seed = some w ∧
        lookupA (encode_db_field_name (to_lowercase w)) chain.meta = none) := by
  unfold generate
  rw [if_neg hne, if_neg (by rw [hv]; exact Bool.false_ne_true)]
  cases seed with
  | some w =>
    dsimp only
    cases hlook : lookupA (encode_db_field_name (to_lowercase w)) chain.meta with
    | none =>
      simp only [hlook]
      right; right; exact ⟨trivial, w, rfl, hlook⟩
    | some key_set =>
      simp only [hlook]
      rcases starts_loop_ok_or_cannot chain lr fuel (build_starts chain key_set).length
          (build_starts chain key_set) s with h | h
      · left; exact h
      · right; left; exact h
  | none =>
    dsimp only
    rcases starts_loop_ok_or_cannot chain lr fuel 1 [(([], []), 1)] s with h | h
    · left; exact h
    · right; left; exact h

/-! ### `C7`: validity of length requirements -/

/-- `C7`: `is_valid` accepts exactly the operator/bound pairs the
specification lists (`<` and `>=` need bound `> 1`; `=`, `<=`, `>` need
bound `> 0`), and on a non-empty chain `generate` returns
`LengthRequirementInvalid` exactly when the given requirement is invalid. -/
theorem C7_length_requirement_validity (lr : LengthRequirement) :
    (lr.is_valid = true ↔
      (match lr.comparison_operator with
        | .LessThan => 1 < lr.value
        | .LessThanOrEqualTo => 0 < lr.value
        | .EqualTo => 0 < lr.value
        | .GreaterThan => 0 < lr.value
        | .GreaterThanOrEqualTo => 1 < lr.value)) ∧
    (∀ (chain : TripletMarkovChain) (seed : Option Str) (fuel : Nat) (s : List Nat),
      chain.data ≠ [] →
      (generate chain seed (some lr) fuel s = .error .LengthRequirementInvalid ↔
        lr.is_valid = false)) := by
  constructor
  · unfold LengthRequirement.is_valid
    cases lr.comparison_operator <;> simp
  · intro chain seed fuel s hne
    constructor
    · intro h
      cases hval : lr.is_valid with
      | false => rfl
      | true =>
        exfalso
        rcases generate_shape chain seed (some lr) fuel s hne (by simp [hval]) with
          ⟨v, hv2⟩ | hv2 | ⟨hv2, -⟩ <;> rw [h] at hv2 <;> simp at hv2
    · intro hval
      unfold generate
      rw [if_neg hne, if_pos (by simp [hval])]

/-- `C7` witness: evaluated at the requirement `< 1` (invalid) on the
chain trained from `"one"`. -/
theorem C7_witness :
    ((⟨1, .LessThan⟩ : LengthRequirement).is_valid = true ↔ (1 : Int) < 1) ∧
    (generate (add_message default_chain (strL "one")) none
        (some ⟨1, .LessThan⟩) 5 [0, 0, 0] = .error .LengthRequirementInvalid ↔
      (⟨1, .LessThan⟩ : LengthRequirement).is_valid = false) :=
  ⟨(C7_length_requirement_validity ⟨1, .LessThan⟩).1,
    (C7_length_requirement_validity ⟨1, .LessThan⟩).2
      (add_message default_chain (strL "one")) none 5 [0, 0, 0] (by decide)⟩

/-! ### `C2`: seed normalization at generation time -/

/-- `C2` counterexample: the chain trained from `"one"` indexes the
trimmed normalization `"one"` of the seed `"one!"`, yet `generate` with
seed `"one!"` returns `NoSuchSeed` — the generation path never falls back
to the alphanumeric-trimmed form. -/
theorem C2_counterexample :
    generate (add_message default_chain (strL "one")) (some (strL "one!")) none 5 [0, 0, 0] =
      .error .NoSuchSeed ∧
    (lookupA (encode_db_field_name (trim_non_alphanumeric (to_lowercase (strL "one!"))))
        (add_message default_chain (strL "one")).meta).isSome = true := by
  exact ⟨by decide, by decide⟩

/-- `C2` amended: `generate` with a seed looks up only the lower-cased
(encoded) seed in the SeedIndex and returns `NoSuchSeed` exactly when that
single lookup misses (given a non-empty chain that passes length-requirement
validation); no trimmed-form fallback happens at generation time. -/
theorem C2_amended_seed_lookup (chain : TripletMarkovChain) (w : Str)
    (lr : Option LengthRequirement) (fuel : Nat) (s : List Nat)
    (hne : chain.data ≠ [])
    (hv : (match lr with | some l => !l.is_valid | none => false) = false) :
    generate chain (some w) lr fuel s = .error .NoSuchSeed ↔
      lookupA (encode_db_field_name (to_lowercase w)) chain.meta = none := by
  constructor
  · intro h
    rcases generate_shape chain (some w) lr fuel s hne hv with
      ⟨v, hv2⟩ | hv2 | ⟨-, w2, hw2, hlook⟩
    · rw [h] at hv2; simp at hv2
    · rw [h] at hv2; simp at hv2
    · cases hw2; exact hlook
  · intro hlook
    unfold generate
    rw [if_neg hne, if_neg (by rw [hv]; exact Bool.false_ne_true)]
    simp only [hlook]

/-- `C2` witness for the amended statement: the capitalized seed `"ONE"`
lower-cases to an indexed normalization, so the lookup succeeds and
`generate` does not return `NoSuchSeed`. -/
theorem C2_amended_witness :
    (generate (add_message default_chain (strL "one")) (some (strL "ONE")) none 5 [0, 0, 0] =
        .error .NoSuchSeed ↔
      lookupA (encode_db_field_name (to_lowercase (strL "ONE")))
        (add_message default_chain (strL "one")).meta = none) :=
  C2_amended_seed_lookup (add_message default_chain (strL "one")) (strL "ONE") none 5 [0, 0, 0]
    (by decide) rfl

/-! ### `C1`: undo-after-train panics in the source -/

/-- `C1` (code bug exhibit): training the empty chain with `"one"` and then
removing the same trained chain hits the `unwrap` panic in
`remove_word_triplet` — the meta map has no entry for the empty
normalization of the boundary token `ε`, so the operation does not return
normally, let alone restore the pre-training state. -/
theorem C1_remove_after_add_panics :
    remove_markov_chain (add_message default_chain (strL "one"))
      (add_message default_chain (strL "one")) = none := by decide

/-! ### `C3`: accepted terminations satisfy the length requirement -/

theorem satisfied_of_difference_zero (lr : LengthRequirement) (n : Int)
    (h : lr.difference n = 0) : lr.is_satisfied_by n = true := by
  obtain ⟨v, op⟩ := lr
  cases op <;>
    simp_all [LengthRequirement.difference, LengthRequirement.is_satisfied_by] <;> omega

theorem not_satisfied_difference_sign (lr : LengthRequirement) (n : Int)
    (h : lr.is_satisfied_by n = false) :
    lr.difference n < 0 ∨ 0 < lr.difference n := by
  obtain ⟨v, op⟩ := lr
  cases op <;>
    simp_all [LengthRequirement.difference, LengthRequirement.is_satisfied_by] <;> omega

theorem prune_check_end_true (req : LengthRequirement) (len : Int)
    (h : req.is_satisfied_by len = false) :
    prune_check (some req) true len = true := by
  simp only [prune_check]
  rw [if_neg (by simp [h])]
  rcases not_satisfied_difference_sign req len h with hd | hd <;> simp [hd]

theorem prune_check_satisfied (req : LengthRequirement) (apEnd : Bool) (len : Int)
    (h : req.is_satisfied_by len = true) :
    prune_check (some req) apEnd len = false := by
  simp only [prune_check]
  rw [if_pos h]

theorem try_queue_ok_sat (req : LengthRequirement)
    (next : Str × Str → Int → List Nat → Except MarkovChainError (List Str) × List Nat)
    (sec : Str) (is_real : Bool)
    (hnext : ∀ p len s out s2, next p len s = (.ok out, s2) →
      req.is_satisfied_by (len + out.length) = true) :
    ∀ (queue : List (Str × Str)) (len : Int) (s : List Nat) (out : List Str) (s2 : List Nat),
      try_queue next sec is_real len queue s = (.ok out, s2) →
      req.is_satisfied_by (len + out.length) = true := by
  intro queue
  induction queue with
  | nil => intro len s out s2 h; simp [try_queue] at h
  | cons p rest ih =>
    intro len s out s2 h
    rw [try_queue] at h
    rcases hnx : next p (len + if is_real then 1 else 0) s with ⟨res, s3⟩
    rw [hnx] at h
    cases res with
    | ok tail =>
      have hsat := hnext p _ s tail s3 hnx
      cases is_real with
      | true =>
        simp at h
        obtain ⟨hout, -⟩ := h
        subst hout
        have harg : len + (((sec :: tail).length : Nat) : Int) =
            len + 1 + ((tail.length : Nat) : Int) := by
          simp only [List.length_cons]
          push_cast
          ring
        rw [harg]
        simpa using hsat
      | false =>
        simp at h
        obtain ⟨hout, -⟩ := h
        subst hout
        simpa using hsat
    | error e => exact ih _ _ _ _ h

theorem generate_internal_ok_sat (chain : TripletMarkovChain) (req : LengthRequirement) :
    ∀ (fuel : Nat) (start : Str × Str) (len : Int) (s : List Nat) (out : List Str)
      (s2 : List Nat),
      generate_internal chain (some req) fuel start len s = (.ok out, s2) →
      req.is_satisfied_by (len + out.length) = true := by
  intro fuel
  induction fuel with
  | zero => intro start len s out s2 h; simp [generate_internal] at h
  | succ n ih =>
    intro start len s out s2 h
    rw [generate_internal] at h
    by_cases hp : prune_check (some req) (start.1 != [] && start.2 == []) len = true
    · rw [if_pos hp] at h; simp at h
    · rw [if_neg hp] at h
      by_cases hend : (start.1 != [] && start.2 == []) = true
      · rw [if_pos hend] at h
        simp at h
        obtain ⟨rfl, -⟩ := h
        have hsat : req.is_satisfied_by len = true := by
          cases hss : req.is_satisfied_by len with
          | true => rfl
          | false =>
            rw [hend] at hp
            exact absurd (prune_check_end_true req len hss) hp
        simpa using hsat
      · rw [if_neg hend] at h
        exact try_queue_ok_sat req (generate_internal chain (some req) n) start.2
          (start.2 != []) ih _ len _ out s2 h

theorem starts_loop_ok_internal (chain : TripletMarkovChain)
    (lr : Option LengthRequirement) (fuel : Nat) :
    ∀ (n : Nat) (starts : List ((Str × Str) × Counter)) (s : List Nat) (v : List Str),
      starts_loop chain lr fuel n starts s = .ok v →
      ∃ start s1 s2, generate_internal chain lr fuel start 0 s1 = (.ok v, s2) := by
  intro n
  induction n with
  | zero => intro starts s v h; simp [starts_loop] at h
  | succ n ih =>
    intro starts s v h
    simp only [starts_loop] at h
    split at h
    · simp at h
    · split at h
      · simp at h
      · rename_i st hchoose
        rcases hgen : generate_internal chain lr fuel st 0 (s.drop 1) with ⟨res, sr⟩
        rw [hgen] at h
        cases res with
        | ok path =>
          simp at h
          exact ⟨st, s.drop 1, sr, by rw [hgen, h]⟩
        | error e => exact ih _ _ _ h

/-- `C3`: whenever `generate` with a length requirement returns `ok`, the
emitted token count satisfies the requirement; and `generate_internal`
accepts a termination state (`second = ε`, `first ≠ ε`) exactly when the
current emitted count satisfies the requirement. -/
theorem C3_length_requirement_honored :
    (∀ (chain : TripletMarkovChain) (req : LengthRequirement) (seed : Option Str)
        (fuel : Nat) (s : List Nat) (seq : List Str),
      generate chain seed (some req) fuel s = .ok seq →
      req.is_satisfied_by (seq.length : Int) = true) ∧
    (∀ (chain : TripletMarkovChain) (req : LengthRequirement) (a b : Str) (len : Int)
        (fuel : Nat) (s : List Nat),
      b = [] → a ≠ [] →
      generate_internal chain (some req) (fuel + 1) (a, b) len s =
        (if req.is_satisfied_by len then (.ok [], s)
          else (.error .CannotMeetLengthRequirement, s))) := by
  constructor
  · intro chain req seed fuel s seq h
    unfold generate at h
    split at h
    · simp at h
    · split at h
      · simp at h
      · cases seed with
        | some w =>
          dsimp only at h
          cases hlook : lookupA (encode_db_field_name (to_lowercase w)) chain.meta with
          | none => rw [hlook] at h; simp at h
          | some key_set =>
            rw [hlook] at h
            obtain ⟨start, sa, sb, hint⟩ :=
              starts_loop_ok_internal chain (some req) fuel _ _ _ seq h
            have := generate_internal_ok_sat chain req fuel start 0 sa seq sb hint
            simpa using this
        | none =>
          obtain ⟨start, sa, sb, hint⟩ :=
            starts_loop_ok_internal chain (some req) fuel _ _ _ seq h
          have := generate_internal_ok_sat chain req fuel start 0 sa seq sb hint
          simpa using this
  · intro chain req a b len fuel s hb ha
    subst hb
    cases hsat : req.is_satisfied_by len with
    | true =>
      rw [generate_internal]
      set apEnd := ((a, ([] : Str)).1 != [] && (a, ([] : Str)).2 == []) with hap
      have hapt : apEnd = true := by rw [hap]; simp [ha]
      rw [hapt, prune_check_satisfied req true len hsat]
      simp
    | false =>
      rw [generate_internal]
      set apEnd := ((a, ([] : Str)).1 != [] && (a, ([] : Str)).2 == []) with hap
      have hapt : apEnd = true := by rw [hap]; simp [ha]
      rw [hapt, prune_check_end_true req len hsat]
      simp

/-- `C3` witness: the chain trained from `"one two three"` with requirement
`= 3` generates a 3-token message whose length satisfies the requirement,
and a termination state with emitted count `2` is accepted under `> 1`. -/
theorem C3_witness :
    (LengthRequirement.is_satisfied_by ⟨3, .EqualTo⟩
      (((strL "one" :: strL "two" :: strL "three" :: []).length : Nat) : Int) = true) ∧
    (generate_internal (add_message default_chain (strL "one")) (some ⟨1, .GreaterThan⟩)
        1 (strL "one", []) 2 [] =
      (if LengthRequirement.is_satisfied_by ⟨1, .GreaterThan⟩ 2 then (.ok [], ([] : List Nat))
        else (.error .CannotMeetLengthRequirement, ([] : List Nat)))) :=
  ⟨C3_length_requirement_honored.1 (add_message default_chain (strL "one two three"))
      ⟨3, .EqualTo⟩ none 10 [0, 0, 0, 0, 0, 0, 0, 0, 0, 0]
      (strL "one" :: strL "two" :: strL "three" :: []) (by decide),
    C3_length_requirement_honored.2 (add_message default_chain (strL "one"))
      ⟨1, .GreaterThan⟩ (strL "one") [] 2 0 [] rfl (by decide)⟩

/-! ### `C4`: connections are a weighted-random permutation of successors -/

theorem choose_go_mem {α : Type} :
    ∀ (l : List (α × Counter)) (acc r : Int) (x : α),
      choose_go r acc l = some x → x ∈ l.map Prod.fst := by
  intro l
  induction l with
  | nil => intro acc r x h; simp [choose_go] at h
  | cons e rest ih =>
    intro acc r x h
    obtain ⟨y, c⟩ := e
    rw [choose_go] at h
    split at h
    · simp at h
      subst h
      simp
    · simp [ih _ _ _ h]

theorem choose_mem {α : Type} (m : List (α × Counter)) (raw : Nat) (x : α)
    (h : choose_from_frequency_map m raw = some x) : x ∈ m.map Prod.fst := by
  simp only [choose_from_frequency_map] at h
  split at h
  · simp at h
  · exact choose_go_mem m 0 _ x h

theorem choose_go_some {α : Type} :
    ∀ (l : List (α × Counter)) (acc r : Int),
      acc ≤ r → r < acc + ((l.map fun e => e.2)).sum →
      ∃ x, choose_go r acc l = some x := by
  intro l
  induction l with
  | nil =>
    intro acc r h1 h2
    simp at h2
    omega
  | cons e rest ih =>
    intro acc r h1 h2
    obtain ⟨y, c⟩ := e
    rw [choose_go]
    by_cases hlt : r < acc + c
    · exact ⟨y, by rw [if_pos hlt]⟩
    · rw [if_neg hlt]
      apply ih (acc + c) r (by omega)
      simp at h2 ⊢
      omega

theorem freq_total_pos {α : Type} (wm : List (α × Counter))
    (hpos : ∀ e ∈ wm, 0 < e.2) (hne : wm ≠ []) :
    0 < ((wm.map fun e => e.2)).sum := by
  apply List.sum_pos
  · intro a ha
    obtain ⟨e, he, rfl⟩ := List.mem_map.mp ha
    exact hpos e he
  · simpa using hne

theorem choose_some {α : Type} (m : List (α × Counter)) (raw : Nat)
    (htot : 0 < ((m.map fun e => e.2)).sum) :
    ∃ x, choose_from_frequency_map m raw = some x := by
  simp only [choose_from_frequency_map]
  rw [if_neg (not_le.mpr htot)]
  apply choose_go_some
  · exact Int.emod_nonneg _ (ne_of_gt htot)
  · rw [zero_add]
    exact Int.emod_lt_of_pos _ htot

theorem eraseA_of_not_mem {α β : Type} [DecidableEq α] (m : List (α × β)) (x : α)
    (h : x ∉ m.map Prod.fst) : eraseA x m = m := by
  unfold eraseA
  refine List.filter_eq_self.mpr ?_
  intro e he
  have hne : e.1 ≠ x := fun hex => h (hex ▸ List.mem_map_of_mem Prod.fst he)
  simpa using hne

theorem eraseA_perm {α β : Type} [DecidableEq α] (m : List (α × β))
    (hnd : (m.map Prod.fst).Nodup) (x : α) (hx : x ∈ m.map Prod.fst) :
    ∃ c, (x, c) ∈ m ∧ m.Perm ((x, c) :: eraseA x m) := by
  induction m with
  | nil => simp at hx
  | cons e rest ih =>
    obtain ⟨a, b⟩ := e
    simp at hnd
    by_cases hax : a = x
    · subst hax
      refine ⟨b, List.mem_cons_self _ _, ?_⟩
      have hrw : eraseA a ((a, b) :: rest) = rest := by
        unfold eraseA
        rw [List.filter_cons, if_neg (by simp)]
        show eraseA a rest = rest
        apply eraseA_of_not_mem
        intro hmem
        obtain ⟨⟨u, v⟩, he, hfst⟩ := List.mem_map.mp hmem
        cases hfst
        exact absurd he (hnd.1 v)
      rw [hrw]
    · have hx2 : x ∈ rest.map Prod.fst := by
        simp at hx
        rcases hx with h | h
        · exact absurd h.symm hax
        · simpa using h
      obtain ⟨c, hc, hperm⟩ := ih hnd.2 hx2
      refine ⟨c, List.mem_cons_of_mem _ hc, ?_⟩
      have herase : eraseA x ((a, b) :: rest) = (a, b) :: eraseA x rest := by
        unfold eraseA
        rw [List.filter_cons, if_pos (by simpa using hax)]
      rw [herase]
      exact (hperm.cons (a, b)).trans (List.Perm.swap _ _ _)

theorem connections_loop_perm (secEnc : Str) :
    ∀ (n : Nat) (wm : List (Str × Counter)) (s : List Nat),
      (wm.map Prod.fst).Nodup → (∀ e ∈ wm, 0 < e.2) → wm.length ≤ n →
      (connections_loop secEnc n wm s).1.Perm
        (wm.map fun e => (secEnc, decode_db_field_name e.1)) := by
  intro n
  induction n with
  | zero =>
    intro wm s hnd hpos hlen
    have hwm : wm = [] := List.length_eq_zero.mp (Nat.le_zero.mp hlen)
    subst hwm
    simp [connections_loop]
  | succ n ih =>
    intro wm s hnd hpos hlen
    by_cases hwm : wm = []
    · subst hwm; simp [connections_loop]
    · rw [connections_loop, if_neg hwm]
      obtain ⟨x, hx⟩ := choose_some wm (s.headD 0) (freq_total_pos wm hpos hwm)
      rw [hx]
      have hxmem := choose_mem wm (s.headD 0) x hx
      obtain ⟨c, hc, hperm⟩ := eraseA_perm wm hnd x hxmem
      have hlen2 : (eraseA x wm).length ≤ n := by
        have := hperm.length_eq
        simp at this
        omega
      have hnd2 : ((eraseA x wm).map Prod.fst).Nodup :=
        List.Nodup.sublist (List.Sublist.map _ (List.filter_sublist _)) hnd
      have hpos2 : ∀ e ∈ eraseA x wm, 0 < e.2 := fun e he =>
        hpos e (List.mem_of_mem_filter he)
      have hih := ih (eraseA x wm) (s.drop 1) hnd2 hpos2 hlen2
      dsimp only
      refine List.Perm.trans (List.Perm.cons _ hih) ?_
      have hmap := hperm.map fun e => (secEnc, decode_db_field_name e.1)
      simp only [List.map_cons] at hmap
      exact hmap.symm

/-- `C4`: for a context present in the data map whose successor counts are
all positive, `get_connections_in_weighted_random_order` returns (for every
outcome of the draws) a permutation of the successor set — each stored
successor exactly once, decoded and paired with the encoded second context
component; for an absent context it returns the empty vector.  (The `Nodup`
hypothesis is the `HashMap` key-uniqueness representation invariant.) -/
theorem C4_connections_weighted_permutation (chain : TripletMarkovChain) (pair : Str × Str)
    (s : List Nat) :
    (∀ word_map, lookupA (pair_to_string pair) chain.data = some word_map →
      (word_map.map Prod.fst).Nodup → (∀ e ∈ word_map, 0 < e.2) →
      (get_connections_in_weighted_random_order chain pair s).1.Perm
        (word_map.map fun e => (encode_db_field_name pair.2, decode_db_field_name e.1))) ∧
    (lookupA (pair_to_string pair) chain.data = none →
      get_connections_in_weighted_random_order chain pair s = ([], s)) := by
  constructor
  · intro word_map hlook hnd hpos
    unfold get_connections_in_weighted_random_order
    rw [hlook]
    exact connections_loop_perm (encode_db_field_name pair.2) word_map.length word_map s
      hnd hpos le_rfl
  · intro hlook
    unfold get_connections_in_weighted_random_order
    rw [hlook]

/-- `C4` witness: a two-successor context enumerated on a concrete draw
stream, and an absent context yielding the empty vector. -/
theorem C4_witness :
    ((get_connections_in_weighted_random_order
        ⟨[([' '], [(strL "a", 2), (strL "b", 1)])], []⟩ ([], []) [0, 0]).1.Perm
      ([(strL "a", 2), (strL "b", 1)].map
        fun e => (encode_db_field_name ([] : Str), decode_db_field_name e.1))) ∧
    get_connections_in_weighted_random_order
        ⟨[([' '], [(strL "a", 2), (strL "b", 1)])], []⟩ ([], strL "x") [] = ([], []) :=
  ⟨(C4_connections_weighted_permutation ⟨[([' '], [(strL "a", 2), (strL "b", 1)])], []⟩
      ([], []) [0, 0]).1 [(strL "a", 2), (strL "b", 1)] (by decide) (by decide) (by decide),
    (C4_connections_weighted_permutation ⟨[([' '], [(strL "a", 2), (strL "b", 1)])], []⟩
      ([], strL "x") []).2 (by decide)⟩

/-- `C8` witness: the codec round-trips the reserved-prefix token `"$foo"`
and fixes the plain token `"foo"`. -/
theorem C8_witness :
    decode_db_field_name (encode_db_field_name (strL "$foo")) = strL "$foo" ∧
    encode_db_field_name (strL "foo") = strL "foo" :=
  ⟨(C8_codec_two_sided_inverse (strL "$foo")).1 (by decide),
    (C8_codec_two_sided_inverse (strL "foo")).2.2 (by decide)⟩

/-! ### Association-list and set helper lemmas -/

theorem lookupA_mem {α β : Type} [DecidableEq α] :
    ∀ (m : List (α × β)) (k : α) (v : β), lookupA k m = some v → (k, v) ∈ m := by
  intro m
  induction m with
  | nil => intro k v h; simp [lookupA] at h
  | cons e rest ih =>
    intro k v h
    obtain ⟨a, b⟩ := e
    rw [lookupA] at h
    split at h
    · rename_i hak
      simp at h
      subst hak h
      simp
    · exact List.mem_cons_of_mem _ (ih k v h)

theorem lookupA_insertA {α β : Type} [DecidableEq α] :
    ∀ (m : List (α × β)) (k k2 : α) (v : β),
      lookupA k (insertA k2 v m) = if k2 = k then some v else lookupA k m := by
  intro m
  induction m with
  | nil =>
    intro k k2 v
    simp only [insertA, lookupA]
  | cons e rest ih =>
    intro k k2 v
    obtain ⟨a, b⟩ := e
    rw [insertA]
    by_cases hak2 : a = k2
    · rw [if_pos hak2]
      subst hak2
      by_cases hk : a = k
      · subst hk
        simp [lookupA]
      · rw [if_neg hk]
        simp [lookupA, hk]
    · rw [if_neg hak2]
      by_cases hk : a = k
      · subst hk
        rw [if_neg (fun h => hak2 h.symm)]
        simp [lookupA]
      · simp only [lookupA, if_neg hk]
        exact ih k k2 v

theorem mem_insertA {α β : Type} [DecidableEq α] :
    ∀ (m : List (α × β)) (k : α) (v : β) (e : α × β),
      e ∈ insertA k v m → e = (k, v) ∨ e ∈ m := by
  intro m
  induction m with
  | nil => intro k v e h; simp [insertA] at h; left; exact h
  | cons e2 rest ih =>
    intro k v e h
    obtain ⟨a, b⟩ := e2
    rw [insertA] at h
    split at h
    · rcases List.mem_cons.mp h with h | h
      · left; exact h
      · right; exact List.mem_cons_of_mem _ h
    · rcases List.mem_cons.mp h with h | h
      · right; exact h ▸ List.mem_cons_self _ _
      · rcases ih k v e h with h | h
        · left; exact h
        · right; exact List.mem_cons_of_mem _ h

theorem mem_insertA_nodup {α β : Type} [DecidableEq α] :
    ∀ (m : List (α × β)) (k : α) (v : β) (e : α × β),
      (m.map Prod.fst).Nodup → e ∈ insertA k v m →
      e = (k, v) ∨ (e ∈ m ∧ e.1 ≠ k) := by
  intro m
  induction m with
  | nil => intro k v e hnd h; simp [insertA] at h; left; exact h
  | cons e2 rest ih =>
    intro k v e hnd h
    obtain ⟨a, b⟩ := e2
    simp at hnd
    rw [insertA] at h
    split at h
    · rename_i hak
      subst hak
      rcases List.mem_cons.mp h with h | h
      · left; exact h
      · right
        refine ⟨List.mem_cons_of_mem _ h, ?_⟩
        intro hek
        exact absurd (hek ▸ List.mem_map_of_mem Prod.fst h) (by simpa using hnd.1)
    · rename_i hak
      rcases List.mem_cons.mp h with h | h
      · subst h
        right
        exact ⟨List.mem_cons_self _ _, fun hk => hak hk⟩
      · rcases ih k v e hnd.2 h with h | h
        · left; exact h
        · right; exact ⟨List.mem_cons_of_mem _ h.1, h.2⟩

theorem insertA_nodup_fst {α β : Type} [DecidableEq α] :
    ∀ (m : List (α × β)) (k : α) (v : β),
      (m.map Prod.fst).Nodup → ((insertA k v m).map Prod.fst).Nodup := by
  intro m
  induction m with
  | nil => intro k v hnd; simp [insertA]
  | cons e rest ih =>
    intro k v hnd
    obtain ⟨a, b⟩ := e
    rw [insertA]
    split
    · rename_i hak
      subst hak
      simpa using hnd
    · rename_i hak
      simp only [List.map_cons, List.nodup_cons] at hnd ⊢
      constructor
      · intro hmem
        obtain ⟨e2, he2, hfst⟩ := List.mem_map.mp hmem
        rcases mem_insertA rest k v e2 he2 with h | h
        · subst h
          exact hak hfst.symm
        · exact hnd.1 (hfst ▸ List.mem_map_of_mem Prod.fst h)
      · exact ih k v hnd.2

theorem lookupA_eraseA {α β : Type} [DecidableEq α] :
    ∀ (m : List (α × β)) (k k2 : α),
      lookupA k (eraseA k2 m) = if k = k2 then none else lookupA k m := by
  intro m
  induction m with
  | nil => intro k k2; simp [eraseA, lookupA]
  | cons e rest ih =>
    intro k k2
    obtain ⟨a, b⟩ := e
    by_cases hk : k = k2
    · rw [if_pos hk]
      subst hk
      unfold eraseA
      rw [List.filter_cons]
      by_cases hak : a = k
      · rw [if_neg (by simp [hak])]
        have := ih k k
        rw [if_pos rfl] at this
        exact this
      · rw [if_pos (by simpa using hak)]
        rw [lookupA, if_neg hak]
        have := ih k k
        rw [if_pos rfl] at this
        exact this
    · rw [if_neg hk]
      unfold eraseA
      rw [List.filter_cons]
      by_cases hak : a = k2
      · rw [if_neg (by simp [hak])]
        rw [lookupA, if_neg (by rw [hak]; exact fun h => hk h.symm)]
        have := ih k k2
        rw [if_neg hk] at this
        exact this
      · rw [if_pos (by simpa using hak)]
        rw [lookupA, lookupA]
        split
        · rfl
        · have := ih k k2
          rw [if_neg hk] at this
          exact this

theorem mem_eraseA {α β : Type} [DecidableEq α] (m : List (α × β)) (k : α) (e : α × β) :
    e ∈ eraseA k m ↔ e ∈ m ∧ e.1 ≠ k := by
  unfold eraseA
  rw [List.mem_filter]
  simp

theorem eraseA_nodup_fst {α β : Type} [DecidableEq α] (m : List (α × β)) (k : α)
    (hnd : (m.map Prod.fst).Nodup) : ((eraseA k m).map Prod.fst).Nodup :=
  List.Nodup.sublist (List.Sublist.map _ (List.filter_sublist _)) hnd

theorem insertA_ne_nil {α β : Type} [DecidableEq α] (m : List (α × β)) (k : α) (v : β) :
    insertA k v m ≠ [] := by
  cases m with
  | nil => simp [insertA]
  | cons e rest =>
    obtain ⟨a, b⟩ := e
    rw [insertA]
    split <;> simp

theorem mem_insertS (k x : Str) (set : List Str) :
    x ∈ insertS k set ↔ x = k ∨ x ∈ set := by
  unfold insertS
  split
  · rename_i hmem
    constructor
    · intro h; right; exact h
    · intro h
      rcases h with h | h
      · subst h; exact hmem
      · exact h
  · simp [or_comm]

theorem self_mem_insertS (k : Str) (set : List Str) : k ∈ insertS k set :=
  (mem_insertS k k set).mpr (Or.inl rfl)

theorem insertS_ne_nil (k : Str) (set : List Str) : insertS k set ≠ [] := by
  intro h
  have := self_mem_insertS k set
  rw [h] at this
  simp at this

theorem mem_eraseS (k x : Str) (set : List Str) :
    x ∈ eraseS k set ↔ x ∈ set ∧ x ≠ k := by
  unfold eraseS
  rw [List.mem_filter]
  simp

/-! ### String and tokenizer helper lemmas -/

theorem takeWhile_until_space (b : Str) :
    ∀ (a : Str), ' ' ∉ a →
      ((a ++ ' ' :: b).takeWhile fun c => c ≠ ' ') = a ∧
      ((a ++ ' ' :: b).dropWhile fun c => c ≠ ' ') = ' ' :: b := by
  intro a
  induction a with
  | nil =>
    intro h
    constructor <;> simp [List.takeWhile, List.dropWhile]
  | cons c rest ih =>
    intro h
    simp only [List.mem_cons, not_or] at h
    obtain ⟨h1, h2⟩ := h
    have hc : c ≠ ' ' := fun hh => h1 hh.symm
    have ht := ih h2
    constructor
    · rw [List.cons_append, List.takeWhile_cons, if_pos (by simpa using hc), ht.1]
    · rw [List.cons_append, List.dropWhile_cons, if_pos (by simpa using hc), ht.2]

theorem string_to_pair_append (a b : Str) (h : ' ' ∉ a) :
    string_to_pair (a ++ ' ' :: b) = (a, b) := by
  unfold string_to_pair
  rw [if_pos (by simp)]
  have ht := takeWhile_until_space b a h
  rw [ht.1, ht.2]
  simp

theorem stp_pts (a b : Str) (h : ' ' ∉ a) :
    string_to_pair (pair_to_string (a, b)) = (encode_db_field_name a, b) := by
  unfold pair_to_string encode_db_field_name
  by_cases hd : (a ++ ' ' :: b).head? = some '$'
  · rw [if_pos hd]
    obtain ⟨r, rfl⟩ : ∃ r, a = '$' :: r := by
      cases a with
      | nil => simp at hd
      | cons c r =>
        simp at hd
        exact ⟨r, by rw [hd]⟩
    rw [if_pos (by simp)]
    rw [show '\\' :: ('$' :: r ++ ' ' :: b) = ('\\' :: '$' :: r) ++ ' ' :: b from rfl]
    refine string_to_pair_append ('\\' :: '$' :: r) b ?_
    simp only [List.mem_cons, not_or] at h ⊢
    exact ⟨by decide, by decide, h.2⟩
  · rw [if_neg hd]
    rw [if_neg ?hne]
    case hne =>
      cases a with
      | nil => simp
      | cons c r => simpa using hd
    exact string_to_pair_append a b h

theorem stp_fst_no_space (k : Str) : ' ' ∉ (string_to_pair k).1 := by
  unfold string_to_pair
  split
  · intro hmem
    have := List.mem_takeWhile_imp hmem
    simp at this
  · rename_i hk
    intro hmem
    exact hk hmem

theorem split_whitespace_go_spec :
    ∀ (s cur : Str), (∀ c ∈ cur, ¬ c.isWhitespace = true) →
      ∀ t ∈ split_whitespace_go cur s, t ≠ [] ∧ ∀ c ∈ t, ¬ c.isWhitespace = true := by
  intro s
  induction s with
  | nil =>
    intro cur hcur t ht
    rw [split_whitespace_go] at ht
    split at ht
    · simp at ht
    · rename_i hc
      simp at ht
      subst ht
      refine ⟨by simpa using hc, ?_⟩
      intro c hc2
      exact hcur c (by simpa using hc2)
  | cons c rest ih =>
    intro cur hcur t ht
    rw [split_whitespace_go] at ht
    split at ht
    · split at ht
      · exact ih [] (by simp) t ht
      · rename_i hcur_ne
        rcases List.mem_cons.mp ht with h | h
        · subst h
          refine ⟨by simpa using hcur_ne, ?_⟩
          intro c2 hc2
          exact hcur c2 (by simpa using hc2)
        · exact ih [] (by simp) t h
    · rename_i hcws
      refine ih (c :: cur) ?_ t ht
      intro c2 hc2
      rcases List.mem_cons.mp hc2 with h | h
      · subst h; exact hcws
      · exact hcur c2 h

theorem split_whitespace_tokens (s : Str) :
    ∀ t ∈ split_whitespace s, t ≠ [] ∧ ' ' ∉ t := by
  intro t ht
  have hs := split_whitespace_go_spec s [] (by simp) t ht
  exact ⟨hs.1, fun hm => (hs.2 ' ' hm) (by decide)⟩

theorem windows3_components :
    ∀ (l : List Str) (trip : (Str × Str) × Str), trip ∈ windows3 l →
      trip.1.1 ∈ l ∧ trip.1.2 ∈ l ∧ trip.2 ∈ l := by
  intro l
  induction l with
  | nil => intro trip h; simp [windows3] at h
  | cons a rest ih =>
    intro trip h
    cases rest with
    | nil => simp [windows3] at h
    | cons b rest2 =>
      cases rest2 with
      | nil => simp [windows3] at h
      | cons c r =>
        rw [windows3] at h
        rcases List.mem_cons.mp h with h | h
        · subst h
          exact ⟨by simp, by simp, by simp⟩
        · obtain ⟨h1, h2, h3⟩ := ih trip h
          exact ⟨List.mem_cons_of_mem _ h1, List.mem_cons_of_mem _ h2,
            List.mem_cons_of_mem _ h3⟩

theorem seeds_nodup (w : Str) : (get_associated_seeds_encoded w).Nodup := by
  by_cases h : encode_db_field_name (to_lowercase w) =
      encode_db_field_name (trim_non_alphanumeric (to_lowercase w))
  · simp [get_associated_seeds_encoded, h]
  · simp [get_associated_seeds_encoded, h]

theorem seeds_of_nil : get_associated_seeds_encoded [] = [[]] := by decide

/-! ### SeedIndex bookkeeping lemmas -/

theorem register_seed_lookup (key : Str) (m : List (Str × List Str)) (sd sd2 : Str) :
    lookupA sd2 (register_seed key m sd) =
      if sd = [] then lookupA sd2 m
      else if sd = sd2 then
        some (match lookupA sd m with
          | some set => insertS key set
          | none => [key])
      else lookupA sd2 m := by
  unfold register_seed
  split
  · rfl
  · rename_i hsd
    cases hl : lookupA sd m with
    | some set => rw [lookupA_insertA]
    | none => rw [lookupA_insertA]

theorem register_fold_mono (key : Str) :
    ∀ (sds : List Str) (m : List (Str × List Str)) (sd k : Str),
      k ∈ (lookupA sd m).getD [] →
      k ∈ (lookupA sd (sds.foldl (register_seed key) m)).getD [] := by
  intro sds
  induction sds with
  | nil => intro m sd k hk; exact hk
  | cons sd2 rest ih =>
    intro m sd k hk
    rw [List.foldl_cons]
    refine ih (register_seed key m sd2) sd k ?_
    rw [register_seed_lookup]
    split
    · exact hk
    · split
      · rename_i hss
        simp only [hss]
        cases hl : lookupA sd m with
        | none => rw [hl] at hk; simp at hk
        | some set =>
          rw [hl] at hk
          simp only [hl, Option.getD_some]
          exact (mem_insertS key k set).mpr (Or.inr hk)
      · exact hk

theorem register_fold_registered (key : Str) :
    ∀ (sds : List Str) (m : List (Str × List Str)) (sd : Str),
      sd ∈ sds → sd ≠ [] →
      key ∈ (lookupA sd (sds.foldl (register_seed key) m)).getD [] := by
  intro sds
  induction sds with
  | nil => intro m sd h; simp at h
  | cons sd2 rest ih =>
    intro m sd hmem hne
    rw [List.foldl_cons]
    rcases List.mem_cons.mp hmem with h | h
    · subst h
      refine register_fold_mono key rest _ sd key ?_
      rw [register_seed_lookup, if_neg hne, if_pos rfl]
      cases lookupA sd m with
      | some set => simpa using self_mem_insertS key set
      | none => simp
    · exact ih _ sd h hne

theorem register_fold_entries (key : Str) (Q : Str → Str → Prop) :
    ∀ (sds : List Str) (m : List (Str × List Str)),
      (∀ e ∈ m, e.2 ≠ [] ∧ ∀ k ∈ e.2, Q k e.1) →
      (∀ sd ∈ sds, sd ≠ [] → Q key sd) →
      ∀ e ∈ sds.foldl (register_seed key) m, e.2 ≠ [] ∧ ∀ k ∈ e.2, Q k e.1 := by
  intro sds
  induction sds with
  | nil => intro m hm _ e he; exact hm e he
  | cons sd rest ih =>
    intro m hm hsds e he
    rw [List.foldl_cons] at he
    refine ih (register_seed key m sd) ?_ (fun sd2 h2 => hsds sd2 (List.mem_cons_of_mem _ h2))
      e he
    intro e2 he2
    unfold register_seed at he2
    split at he2
    · exact hm e2 he2
    · rename_i hsd
      cases hl : lookupA sd m with
      | some set =>
        rw [hl] at he2
        rcases mem_insertA _ _ _ _ he2 with h | h
        · subst h
          refine ⟨insertS_ne_nil key set, ?_⟩
          intro k hk
          rcases (mem_insertS key k set).mp hk with h | h
          · subst h; exact hsds sd (List.mem_cons_self _ _) hsd
          · exact (hm (sd, set) (lookupA_mem m sd set hl)).2 k h
        · exact hm e2 h
      | none =>
        rw [hl] at he2
        rcases mem_insertA _ _ _ _ he2 with h | h
        · subst h
          refine ⟨by simp, ?_⟩
          intro k hk
          simp at hk
          subst hk
          exact hsds sd (List.mem_cons_self _ _) hsd
        · exact hm e2 h

theorem register_fold_nodup (key : Str) :
    ∀ (sds : List Str) (m : List (Str × List Str)),
      (m.map Prod.fst).Nodup → ((sds.foldl (register_seed key) m).map Prod.fst).Nodup := by
  intro sds
  induction sds with
  | nil => intro m hm; exact hm
  | cons sd rest ih =>
    intro m hm
    rw [List.foldl_cons]
    refine ih _ ?_
    unfold register_seed
    split
    · exact hm
    · cases lookupA sd m <;> exact insertA_nodup_fst _ _ _ hm

theorem prune_meta_spec (key : Str) :
    ∀ (sds : List Str) (m m2 : List (Str × List Str)),
      sds.Nodup → (m.map Prod.fst).Nodup →
      prune_meta key sds m = some m2 →
      ((m2.map Prod.fst).Nodup ∧
        (∀ sd, sd ∉ sds → lookupA sd m2 = lookupA sd m) ∧
        (∀ sd ∈ sds, ∃ set, lookupA sd m = some set ∧
          lookupA sd m2 = (if eraseS key set = [] then none else some (eraseS key set))) ∧
        (∀ e ∈ m2, (e ∈ m ∧ e.1 ∉ sds) ∨
          (∃ set, (e.1, set) ∈ m ∧ e.1 ∈ sds ∧ e.2 = eraseS key set ∧ e.2 ≠ []))) := by
  intro sds
  induction sds with
  | nil =>
    intro m m2 hnds hndm h
    rw [prune_meta] at h
    simp at h
    subst h
    exact ⟨hndm, fun sd _ => rfl, by simp, fun e he => Or.inl ⟨he, by simp⟩⟩
  | cons sd rest ih =>
    intro m m2 hnds hndm h
    rw [prune_meta] at h
    cases hl : lookupA sd m with
    | none => rw [hl] at h; simp at h
    | some set =>
      rw [hl] at h
      dsimp only at h
      simp only [List.nodup_cons] at hnds
      set m1 := if eraseS key set = [] then eraseA sd m else insertA sd (eraseS key set) m
        with hm1
      have hnd1 : (m1.map Prod.fst).Nodup := by
        rw [hm1]
        split
        · exact eraseA_nodup_fst m sd hndm
        · exact insertA_nodup_fst m sd _ hndm
      have hlook1 : ∀ sd2, sd2 ≠ sd → lookupA sd2 m1 = lookupA sd2 m := by
        intro sd2 hne
        rw [hm1]
        split
        · rw [lookupA_eraseA, if_neg hne]
        · rw [lookupA_insertA, if_neg (fun hh => hne hh.symm)]
      have hlooksd : lookupA sd m1 =
          (if eraseS key set = [] then none else some (eraseS key set)) := by
        rw [hm1]
        split
        · rw [lookupA_eraseA, if_pos rfl]
        · rw [lookupA_insertA, if_pos rfl]
      obtain ⟨hn2, hout, hin, hent⟩ := ih m1 m2 hnds.2 hnd1 h
      refine ⟨hn2, ?_, ?_, ?_⟩
      · intro sd2 hsd2
        simp only [List.mem_cons, not_or] at hsd2
        rw [hout sd2 hsd2.2, hlook1 sd2 hsd2.1]
      · intro sd2 hsd2
        rcases List.mem_cons.mp hsd2 with h2 | h2
        · subst h2
          refine ⟨set, hl, ?_⟩
          rw [hout sd2 hnds.1, hlooksd]
        · obtain ⟨set2, hset2, hchar⟩ := hin sd2 h2
          refine ⟨set2, ?_, hchar⟩
          rw [← hset2]
          exact (hlook1 sd2 (fun hh => hnds.1 (hh ▸ h2))).symm
      · intro e he
        rcases hent e he with ⟨hem1, hnotin⟩ | ⟨set2, hmem1, hsdin, heq, hne⟩
        · rw [hm1] at hem1
          split at hem1
          · rename_i hempty
            obtain ⟨hem, hne⟩ := (mem_eraseA m sd e).mp hem1
            exact Or.inl ⟨hem, by simp [hne, hnotin]⟩
          · rename_i hnonempty
            rcases mem_insertA_nodup m sd _ e hndm hem1 with h2 | h2
            · subst h2
              right
              exact ⟨set, lookupA_mem m sd set hl, List.mem_cons_self _ _, rfl, hnonempty⟩
            · exact Or.inl ⟨h2.1, by simp [h2.2, hnotin]⟩
        · have hsd2ne : e.1 ≠ sd := fun hh => hnds.1 (hh ▸ hsdin)
          have hmem : (e.1, set2) ∈ m := by
            rw [hm1] at hmem1
            split at hmem1
            · exact ((mem_eraseA m sd _).mp hmem1).1
            · rcases mem_insertA_nodup m sd _ _ hndm hmem1 with h2 | h2
              · exact absurd (congrArg Prod.fst h2) (by simpa using hsd2ne)
              · exact h2.1
          exact Or.inr ⟨set2, hmem, List.mem_cons_of_mem _ hsdin, heq, hne⟩

/-! ### Invariant preservation: `add_word_triplet` -/

theorem data_update_inv (chain : TripletMarkovChain) (key : Str)
    (wm2 : List (Str × Counter))
    (hinv : chain_inv chain) (hwf : wf_maps chain)
    (hkey : (lookupA key chain.data).isSome = true) (hwm2 : wm2 ≠ []) :
    chain_inv ⟨insertA key wm2 chain.data, chain.meta⟩ ∧
    wf_maps ⟨insertA key wm2 chain.data, chain.meta⟩ := by
  obtain ⟨h1, h2, h3, h4⟩ := hinv
  obtain ⟨hwd, hwm⟩ := hwf
  refine ⟨⟨?_, ?_, h3, ?_⟩, insertA_nodup_fst _ _ _ hwd, hwm⟩
  · intro e he
    rcases mem_insertA _ _ _ _ he with h | h
    · subst h; exact hwm2
    · exact h1 e h
  · intro e he sd hsd hne
    rcases mem_insertA _ _ _ _ he with h | h
    · subst h
      obtain ⟨wm, hlk⟩ := Option.isSome_iff_exists.mp hkey
      exact h2 (key, wm) (lookupA_mem _ _ _ hlk) sd hsd hne
    · exact h2 e h sd hsd hne
  · intro e he k hk
    obtain ⟨hk1, hk2, hk3⟩ := h4 e he k hk
    refine ⟨?_, hk2, hk3⟩
    rw [lookupA_insertA]
    split
    · rfl
    · exact hk1

theorem add_word_triplet_inv (chain : TripletMarkovChain) (pair : Str × Str) (third : Str)
    (hinv : chain_inv chain) (hwf : wf_maps chain) (hsp : ' ' ∉ pair.1) :
    chain_inv (add_word_triplet chain pair third) ∧
    wf_maps (add_word_triplet chain pair third) := by
  obtain ⟨a, b⟩ := pair
  obtain ⟨h1, h2, h3, h4⟩ := hinv
  obtain ⟨hwd, hwm⟩ := hwf
  have hstp : string_to_pair (pair_to_string (a, b)) = (encode_db_field_name a, b) :=
    stp_pts a b hsp
  have hdata : ∃ wm1, (add_word_triplet chain (a, b) third).data =
      insertA (pair_to_string (a, b)) wm1 chain.data ∧ wm1 ≠ [] := by
    rcases hl1 : lookupA (pair_to_string (a, b)) chain.data with _ | wm
    · refine ⟨[(encode_db_field_name third, 1)], ?_, by simp⟩
      simp only [add_word_triplet, hl1]
    · rcases hl2 : lookupA (encode_db_field_name third) wm with _ | c
      · refine ⟨insertA (encode_db_field_name third) 1 wm, ?_, insertA_ne_nil _ _ _⟩
        simp only [add_word_triplet, hl1, hl2]
      · refine ⟨insertA (encode_db_field_name third) (c + 1) wm, ?_, insertA_ne_nil _ _ _⟩
        simp only [add_word_triplet, hl1, hl2]
  obtain ⟨wm1, hd, hwm1⟩ := hdata
  have hmeta : (add_word_triplet chain (a, b) third).meta =
      (get_associated_seeds_encoded b).foldl
        (register_seed (pair_to_string (a, b))) chain.meta := rfl
  have hnewkey : (lookupA (pair_to_string (a, b))
      (add_word_triplet chain (a, b) third).data).isSome = true := by
    rw [hd, lookupA_insertA, if_pos rfl]
    rfl
  have hentries := register_fold_entries (pair_to_string (a, b))
    (fun k sd => (lookupA k (add_word_triplet chain (a, b) third).data).isSome = true ∧
      sd ∈ get_associated_seeds_encoded (string_to_pair k).2 ∧ sd ≠ [])
    (get_associated_seeds_encoded b) chain.meta
    (by
      intro e he
      refine ⟨h3 e he, ?_⟩
      intro k hk
      obtain ⟨hk1, hk2, hk3⟩ := h4 e he k hk
      refine ⟨?_, hk2, hk3⟩
      rw [hd, lookupA_insertA]
      split
      · rfl
      · exact hk1)
    (by
      intro sd hsd hne
      refine ⟨hnewkey, ?_, hne⟩
      rw [hstp]
      exact hsd)
  refine ⟨⟨?_, ?_, ?_, ?_⟩, ?_, ?_⟩
  · intro e he
    rw [hd] at he
    rcases mem_insertA _ _ _ _ he with h | h
    · subst h; exact hwm1
    · exact h1 e h
  · intro e he sd hsd hne
    rw [hd] at he
    rw [hmeta]
    rcases mem_insertA _ _ _ _ he with h | h
    · subst h
      rw [hstp] at hsd
      exact register_fold_registered (pair_to_string (a, b)) _ chain.meta sd hsd hne
    · exact register_fold_mono _ _ chain.meta sd e.1 (h2 e h sd hsd hne)
  · intro e he
    rw [hmeta] at he
    exact (hentries e he).1
  · intro e he k hk
    rw [hmeta] at he
    exact (hentries e he).2 k hk
  · rw [hd]
    exact insertA_nodup_fst _ _ _ hwd
  · rw [hmeta]
    exact register_fold_nodup _ _ chain.meta hwm

/-! ### Invariant preservation: `remove_word_triplet` -/

theorem remove_word_triplet_inv (chain : TripletMarkovChain) (pair : Str × Str)
    (third : Str) (amount : Counter) (chain2 : TripletMarkovChain)
    (hinv : chain_inv chain) (hwf : wf_maps chain) (hsp : ' ' ∉ pair.1)
    (h : remove_word_triplet chain pair third amount = some chain2) :
    chain_inv chain2 ∧ wf_maps chain2 := by
  obtain ⟨a, b⟩ := pair
  have hstp : string_to_pair (pair_to_string (a, b)) = (encode_db_field_name a, b) :=
    stp_pts a b hsp
  unfold remove_word_triplet at h
  dsimp only at h
  cases hlk : lookupA (pair_to_string (a, b)) chain.data with
  | none =>
    rw [hlk] at h
    simp at h
    subst h
    exact ⟨hinv, hwf⟩
  | some wm =>
    rw [hlk] at h
    dsimp only at h
    cases hlt : lookupA (encode_db_field_name third) wm with
    | none =>
      rw [hlt] at h
      simp at h
      subst h
      exact ⟨hinv, hwf⟩
    | some count =>
      rw [hlt] at h
      dsimp only at h
      by_cases hc : count - amount > 0
      · rw [if_pos hc] at h
        simp at h
        subst h
        exact data_update_inv chain (pair_to_string (a, b)) _ hinv hwf
          (by rw [hlk]; rfl) (insertA_ne_nil _ _ _)
      · rw [if_neg hc] at h
        by_cases hwm2 : eraseA (encode_db_field_name third) wm = []
        · rw [if_pos hwm2] at h
          cases hpm : prune_meta (pair_to_string (a, b))
              (get_associated_seeds_encoded b) chain.meta with
          | none => rw [hpm] at h; simp at h
          | some meta2 =>
            rw [hpm] at h
            simp at h
            subst h
            obtain ⟨h1, h2, h3, h4⟩ := hinv
            obtain ⟨hwd, hwm⟩ := hwf
            obtain ⟨hn2, hout, hin, hent⟩ := prune_meta_spec (pair_to_string (a, b))
              (get_associated_seeds_encoded b) chain.meta meta2 (seeds_nodup b) hwm hpm
            refine ⟨⟨?_, ?_, ?_, ?_⟩, eraseA_nodup_fst _ _ hwd, hn2⟩
            · intro e he
              exact h1 e ((mem_eraseA _ _ _).mp he).1
            · intro e he sd hsd hne
              obtain ⟨hed, hnekey⟩ := (mem_eraseA _ _ _).mp he
              have hold := h2 e hed sd hsd hne
              by_cases hmem : sd ∈ get_associated_seeds_encoded b
              · obtain ⟨set, hset, hchar⟩ := hin sd hmem
                rw [hset] at hold
                simp at hold
                have he1 : e.1 ∈ eraseS (pair_to_string (a, b)) set :=
                  (mem_eraseS _ _ _).mpr ⟨hold, hnekey⟩
                have hne2 : eraseS (pair_to_string (a, b)) set ≠ [] := by
                  intro hnil
                  rw [hnil] at he1
                  simp at he1
                rw [hchar, if_neg hne2]
                simpa using he1
              · rw [hout sd hmem]
                exact hold
            · intro e he
              rcases hent e he with ⟨hem, -⟩ | ⟨set, -, -, -, hne2⟩
              · exact h3 e hem
              · exact hne2
            · intro e he k hk
              rcases hent e he with ⟨hem, hnotin⟩ | ⟨set, hmem, hsdin, heq, hne2⟩
              · obtain ⟨hk1, hk2, hk3⟩ := h4 e hem k hk
                have hknekey : k ≠ pair_to_string (a, b) := by
                  intro hkk
                  subst hkk
                  rw [hstp] at hk2
                  exact hnotin hk2
                refine ⟨?_, hk2, hk3⟩
                rw [lookupA_eraseA, if_neg hknekey]
                exact hk1
              · rw [heq] at hk
                obtain ⟨hkset, hknekey⟩ := (mem_eraseS _ _ _).mp hk
                obtain ⟨hk1, hk2, hk3⟩ := h4 (e.1, set) hmem k hkset
                refine ⟨?_, hk2, hk3⟩
                rw [lookupA_eraseA, if_neg hknekey]
                exact hk1
        · rw [if_neg hwm2] at h
          simp at h
          subst h
          exact data_update_inv chain (pair_to_string (a, b)) _ hinv hwf
            (by rw [hlk]; rfl) hwm2

/-! ### Invariant preservation: message-level and chain-level operations -/

theorem add_triplets_inv :
    ∀ (wlist : List ((Str × Str) × Str)) (chain : TripletMarkovChain),
      chain_inv chain → wf_maps chain → (∀ trip ∈ wlist, ' ' ∉ trip.1.1) →
      chain_inv (add_triplets chain wlist) ∧ wf_maps (add_triplets chain wlist) := by
  intro wlist
  induction wlist with
  | nil => intro chain hi hw _; exact ⟨hi, hw⟩
  | cons trip rest ih =>
    intro chain hi hw hsp
    rw [add_triplets_cons]
    obtain ⟨hi2, hw2⟩ := add_word_triplet_inv chain trip.1 trip.2 hi hw
      (hsp trip (List.mem_cons_self _ _))
    exact ih _ hi2 hw2 (fun t ht => hsp t (List.mem_cons_of_mem _ ht))

theorem add_message_eq_fold (chain : TripletMarkovChain) (text : Str) (w : Str)
    (ws : List Str) (h : split_whitespace text = w :: ws) :
    add_message chain text =
      add_triplets chain (windows3 ([] :: [] :: (w :: ws) ++ [[], []])) := by
  show (match split_whitespace text with
    | [] => chain
    | w :: ws =>
      let st := add_message_loop (chain, ([], [])) (w :: ws)
      let chain1 := add_word_triplet st.1 st.2 []
      add_word_triplet chain1 (st.2.2, []) []) = _
  rw [h]
  exact add_message_loop_windows (w :: ws) chain [] []

theorem add_message_inv (chain : TripletMarkovChain) (text : Str)
    (hinv : chain_inv chain) (hwf : wf_maps chain) :
    chain_inv (add_message chain text) ∧ wf_maps (add_message chain text) := by
  cases hs : split_whitespace text with
  | nil =>
    have heq : add_message chain text = chain := by simp [add_message, hs]
    rw [heq]
    exact ⟨hinv, hwf⟩
  | cons w ws =>
    rw [add_message_eq_fold chain text w ws hs]
    refine add_triplets_inv _ chain hinv hwf ?_
    intro trip ht
    have hcomp := (windows3_components _ trip ht).1
    rcases List.mem_cons.mp hcomp with h | h
    · rw [h]; simp
    · rcases List.mem_cons.mp h with h | h
      · rw [h]; simp
      · rcases List.mem_append.mp h with h | h
        · exact (split_whitespace_tokens text trip.1.1 (hs ▸ h)).2
        · rcases List.mem_cons.mp h with h | h
          · rw [h]; simp
          · rcases List.mem_cons.mp h with h | h
            · rw [h]; simp
            · simp at h

theorem foldlM_option_preserve {α β : Type} (P : β → Prop) (step : β → α → Option β) :
    ∀ (l : List α) (c c2 : β),
      (∀ b x c3, P b → x ∈ l → step b x = some c3 → P c3) →
      P c → List.foldlM step c l = some c2 → P c2 := by
  intro l
  induction l with
  | nil =>
    intro c c2 _ hc h
    simp [List.foldlM] at h
    rw [← h]
    exact hc
  | cons x rest ih =>
    intro c c2 hstep hc h
    rw [List.foldlM_cons] at h
    cases hs : step c x with
    | none => rw [hs] at h; simp at h
    | some c1 =>
      rw [hs] at h
      simp at h
      exact ih c1 c2 (fun b y c3 hb hy => hstep b y c3 hb (List.mem_cons_of_mem _ hy))
        (hstep c x c1 hc (List.mem_cons_self _ _) hs) h

theorem remove_markov_chain_inv (chain other chain2 : TripletMarkovChain)
    (hinv : chain_inv chain) (hwf : wf_maps chain)
    (h : remove_markov_chain chain other = some chain2) :
    chain_inv chain2 ∧ wf_maps chain2 := by
  unfold remove_markov_chain at h
  refine foldlM_option_preserve (fun c => chain_inv c ∧ wf_maps c) _ other.data chain chain2
    ?_ ⟨hinv, hwf⟩ h
  intro b entry c3 hb _ hstep
  refine foldlM_option_preserve (fun c => chain_inv c ∧ wf_maps c) _ entry.2 b c3 ?_ hb hstep
  intro b2 wc c4 hb2 _ hstep2
  exact remove_word_triplet_inv b2 (string_to_pair entry.1) wc.1 wc.2 c4 hb2.1 hb2.2
    (stp_fst_no_space entry.1) hstep2

/-- `C5`: the conjunction of the ContextTable invariant (all stored
distributions non-empty) and the SeedIndex invariant (data keys registered
under every non-empty normalization of their second token; meta entries
non-empty, pruned of removed keys) is preserved by `add_word_triplet`,
`add_message`, `remove_word_triplet` and `remove_markov_chain` (for the
removals: whenever the operation returns rather than hitting the `unwrap`
panic); pairs fed to the triplet operations have space-free first
components, as asserted by the source's `debug_assert`. -/
theorem C5_invariants_preserved (chain : TripletMarkovChain)
    (hinv : chain_inv chain) (hwf : wf_maps chain) :
    (∀ pair third, ' ' ∉ pair.1 → chain_inv (add_word_triplet chain pair third)) ∧
    (∀ text, chain_inv (add_message chain text)) ∧
    (∀ pair third amount chain2, ' ' ∉ pair.1 →
      remove_word_triplet chain pair third amount = some chain2 → chain_inv chain2) ∧
    (∀ other chain2, remove_markov_chain chain other = some chain2 → chain_inv chain2) :=
  ⟨fun pair third hsp => (add_word_triplet_inv chain pair third hinv hwf hsp).1,
    fun text => (add_message_inv chain text hinv hwf).1,
    fun pair third amount chain2 hsp h =>
      (remove_word_triplet_inv chain pair third amount chain2 hinv hwf hsp h).1,
    fun other chain2 h => (remove_markov_chain_inv chain other chain2 hinv hwf h).1⟩

/-- `C5` witness: the invariant evaluated through a concrete add, a
concrete trained message, and a concrete exact removal. -/
theorem C5_witness :
    chain_inv (add_word_triplet default_chain (strL "x", strL "y") (strL "z")) ∧
    chain_inv (add_message default_chain (strL "a b")) ∧
    chain_inv (⟨[], []⟩ : TripletMarkovChain) :=
  have h1 : chain_inv default_chain := by unfold chain_inv; decide
  have h2 : wf_maps default_chain := by unfold wf_maps; decide
  have hc1 : chain_inv (add_word_triplet default_chain (strL "x", strL "y") (strL "z")) :=
    (C5_invariants_preserved default_chain h1 h2).1 (strL "x", strL "y") (strL "z") (by decide)
  have hw1 : wf_maps (add_word_triplet default_chain (strL "x", strL "y") (strL "z")) := by
    unfold wf_maps; decide
  ⟨hc1,
    (C5_invariants_preserved default_chain h1 h2).2.1 (strL "a b"),
    (C5_invariants_preserved (add_word_triplet default_chain (strL "x", strL "y") (strL "z"))
        hc1 hw1).2.2.1 (strL "x", strL "y") (strL "z") 1 ⟨[], []⟩ (by decide) (by decide)⟩

/-! ### `C10`: chains built by `add_message` never generate empty output -/

theorem pts_eq_space (a b : Str) (h : pair_to_string (a, b) = pair_to_string ([], [])) :
    a = [] ∧ b = [] := by
  have hsp : pair_to_string ([], []) = [' '] := rfl
  rw [hsp] at h
  unfold pair_to_string encode_db_field_name at h
  split at h
  · simp at h
  · cases a with
    | nil =>
      simp at h
      exact ⟨rfl, h⟩
    | cons c r => simp at h

theorem windows3_tail_pairs (ts : List Str) :
    ∀ (x : Str), (∀ t ∈ ts, t ≠ []) → (ts = [] → x ≠ []) →
      ∀ trip ∈ windows3 (x :: ts ++ [[], []]), trip.1 ≠ ([], []) := by
  induction ts with
  | nil =>
    intro x _ hx trip htrip
    rw [show (x :: ([] : List Str) ++ [[], []]) = [x, [], []] from rfl, windows3] at htrip
    simp [windows3] at htrip
    subst htrip
    intro hcon
    exact hx rfl (congrArg Prod.fst hcon)
  | cons t ts2 ih =>
    intro x hts _ trip htrip
    rw [show (x :: (t :: ts2) ++ [[], []]) = x :: t :: (ts2 ++ [[], []]) from rfl] at htrip
    obtain ⟨z, l2, hzl⟩ : ∃ z l2, ts2 ++ [[], []] = z :: l2 := by
      cases ts2 <;> exact ⟨_, _, rfl⟩
    rw [hzl, windows3] at htrip
    rcases List.mem_cons.mp htrip with h | h
    · subst h
      intro hcon
      exact hts t (List.mem_cons_self _ _) (congrArg Prod.snd hcon)
    · rw [← hzl] at h
      exact ih t (fun t2 h2 => hts t2 (List.mem_cons_of_mem _ h2))
        (fun _ => hts t (List.mem_cons_self _ _)) trip h

theorem windows3_padded_pairs (w : Str) (ws : List Str)
    (htok : ∀ t ∈ w :: ws, t ≠ []) :
    ∀ trip ∈ windows3 ([] :: [] :: (w :: ws) ++ [[], []]),
      trip.1 = ([], []) → trip.2 ≠ [] := by
  intro trip htrip
  rw [show (([] : Str) :: [] :: (w :: ws) ++ [[], []]) =
    [] :: [] :: w :: (ws ++ [[], []]) from rfl, windows3] at htrip
  rcases List.mem_cons.mp htrip with h | h
  · subst h
    intro _
    exact htok w (List.mem_cons_self _ _)
  · intro hpair
    refine absurd hpair (windows3_tail_pairs (w :: ws) [] htok (by simp) trip ?_)
    exact h

theorem add_word_triplet_gen_inv (chain : TripletMarkovChain) (pair : Str × Str)
    (third : Str) (hg : gen_seed_inv chain) (hsp : ' ' ∉ pair.1)
    (hinit : pair = ([], []) → third ≠ []) :
    gen_seed_inv (add_word_triplet chain pair third) := by
  obtain ⟨a, b⟩ := pair
  obtain ⟨hga, hgb⟩ := hg
  have hdata : ∃ wm1, (add_word_triplet chain (a, b) third).data =
      insertA (pair_to_string (a, b)) wm1 chain.data ∧
      ∀ e2 ∈ wm1, e2.1 = encode_db_field_name third ∨
        e2 ∈ (lookupA (pair_to_string (a, b)) chain.data).getD [] := by
    rcases hl1 : lookupA (pair_to_string (a, b)) chain.data with _ | wm
    · refine ⟨[(encode_db_field_name third, 1)], ?_, ?_⟩
      · simp only [add_word_triplet, hl1]
      · intro e2 he2
        simp at he2
        left
        rw [he2]
    · rcases hl2 : lookupA (encode_db_field_name third) wm with _ | c
      · refine ⟨insertA (encode_db_field_name third) 1 wm, ?_, ?_⟩
        · simp only [add_word_triplet, hl1, hl2]
        · intro e2 he2
          rcases mem_insertA _ _ _ _ he2 with h | h
          · left; rw [h]
          · right; simpa using h
      · refine ⟨insertA (encode_db_field_name third) (c + 1) wm, ?_, ?_⟩
        · simp only [add_word_triplet, hl1, hl2]
        · intro e2 he2
          rcases mem_insertA _ _ _ _ he2 with h | h
          · left; rw [h]
          · right; simpa using h
  obtain ⟨wm1, hd, hwm1mem⟩ := hdata
  have hmeta : (add_word_triplet chain (a, b) third).meta =
      (get_associated_seeds_encoded b).foldl
        (register_seed (pair_to_string (a, b))) chain.meta := rfl
  constructor
  · intro e2 he2
    rw [hd, lookupA_insertA] at he2
    split at he2
    · rename_i hkk
      simp at he2
      obtain ⟨ha0, hb0⟩ := pts_eq_space a b hkk
      subst ha0
      subst hb0
      have hthird : third ≠ [] := hinit rfl
      rcases hwm1mem e2 he2 with h | h
      · rw [h]
        intro hcon
        exact hthird ((encode_nil_iff third).mp hcon)
      · exact hga e2 h
    · exact hga e2 he2
  · intro e he
    rw [hmeta] at he
    refine register_fold_entries (pair_to_string (a, b))
      (fun k _ => (string_to_pair k).2 ≠ []) (get_associated_seeds_encoded b)
      chain.meta hgb ?_ e he
    intro sd hsd hne
    by_cases hb : b = []
    · subst hb
      rw [seeds_of_nil] at hsd
      simp at hsd
      exact absurd hsd hne
    · rw [stp_pts a b hsp]
      simpa using hb

theorem add_triplets_gen_inv :
    ∀ (wlist : List ((Str × Str) × Str)) (chain : TripletMarkovChain),
      gen_seed_inv chain →
      (∀ trip ∈ wlist, ' ' ∉ trip.1.1 ∧ (trip.1 = ([], []) → trip.2 ≠ [])) →
      gen_seed_inv (add_triplets chain wlist) := by
  intro wlist
  induction wlist with
  | nil => intro chain hg _; exact hg
  | cons trip rest ih =>
    intro chain hg hsp
    rw [add_triplets_cons]
    have hhead := hsp trip (List.mem_cons_self _ _)
    exact ih _ (add_word_triplet_gen_inv chain trip.1 trip.2 hg hhead.1 hhead.2)
      (fun t ht => hsp t (List.mem_cons_of_mem _ ht))

theorem add_message_gen_inv (chain : TripletMarkovChain) (text : Str)
    (hg : gen_seed_inv chain) : gen_seed_inv (add_message chain text) := by
  cases hs : split_whitespace text with
  | nil =>
    have heq : add_message chain text = chain := by simp [add_message, hs]
    rw [heq]
    exact hg
  | cons w ws =>
    rw [add_message_eq_fold chain text w ws hs]
    refine add_triplets_gen_inv _ chain hg ?_
    intro trip ht
    have htok : ∀ t ∈ w :: ws, t ≠ [] :=
      fun t h2 => (split_whitespace_tokens text t (hs ▸ h2)).1
    refine ⟨?_, windows3_padded_pairs w ws htok trip ht⟩
    have hcomp := (windows3_components _ trip ht).1
    rcases List.mem_cons.mp hcomp with h | h
    · rw [h]; simp
    · rcases List.mem_cons.mp h with h | h
      · rw [h]; simp
      · rcases List.mem_append.mp h with h | h
        · exact (split_whitespace_tokens text trip.1.1 (hs ▸ h)).2
        · rcases List.mem_cons.mp h with h | h
          · rw [h]; simp
          · rcases List.mem_cons.mp h with h | h
            · rw [h]; simp
            · simp at h

theorem gen_inv_foldl_aux :
    ∀ (texts : List Str) (chain : TripletMarkovChain), gen_seed_inv chain →
      gen_seed_inv (texts.foldl add_message chain) := by
  intro texts
  induction texts with
  | nil => intro chain hg; exact hg
  | cons t rest ih =>
    intro chain hg
    rw [List.foldl_cons]
    exact ih _ (add_message_gen_inv chain t hg)

theorem gen_inv_foldl (texts : List Str) :
    gen_seed_inv (texts.foldl add_message default_chain) :=
  gen_inv_foldl_aux texts default_chain
    (by
      constructor
      · intro e he
        simp [default_chain, lookupA] at he
      · intro e he
        simp [default_chain] at he)

theorem try_queue_ok_shape
    (next : Str × Str → Int → List Nat → Except MarkovChainError (List Str) × List Nat)
    (sec : Str) (is_real : Bool) (len : Int) :
    ∀ (queue : List (Str × Str)) (s : List Nat) (out : List Str) (s2 : List Nat),
      try_queue next sec is_real len queue s = (.ok out, s2) →
      ∃ p s3 tail s4, p ∈ queue ∧
        next p (len + if is_real then 1 else 0) s3 = (.ok tail, s4) ∧
        out = (if is_real then sec :: tail else tail) := by
  intro queue
  induction queue with
  | nil => intro s out s2 h; simp [try_queue] at h
  | cons p rest ih =>
    intro s out s2 h
    rw [try_queue] at h
    rcases hnx : next p (len + if is_real then 1 else 0) s with ⟨res, s3⟩
    rw [hnx] at h
    cases res with
    | ok tail =>
      simp at h
      exact ⟨p, s, tail, s3, List.mem_cons_self _ _, hnx, h.1.symm⟩
    | error e =>
      obtain ⟨p2, s3b, tail, s4, hp2, hnx2, hout⟩ := ih _ _ _ h
      exact ⟨p2, s3b, tail, s4, List.mem_cons_of_mem _ hp2, hnx2, hout⟩

theorem generate_internal_ok_real (chain : TripletMarkovChain)
    (lr : Option LengthRequirement) :
    ∀ (fuel : Nat) (start : Str × Str) (len : Int) (s : List Nat) (out : List Str)
      (s2 : List Nat),
      generate_internal chain lr fuel start len s = (.ok out, s2) →
      start.2 ≠ [] → out ≠ [] := by
  intro fuel start len s out s2 h hreal
  cases fuel with
  | zero => simp [generate_internal] at h
  | succ n =>
    rw [generate_internal] at h
    by_cases hp : prune_check lr (start.1 != [] && start.2 == []) len = true
    · rw [if_pos hp] at h
      simp at h
    · rw [if_neg hp] at h
      have hend : (start.1 != [] && start.2 == []) = false := by
        have : (start.2 == []) = false := by simpa using hreal
        simp [this]
      rw [hend, if_neg (by simp)] at h
      dsimp only at h
      have hreal2 : (start.2 != []) = true := by simpa using hreal
      rw [hreal2] at h
      obtain ⟨p, s3, tail, s4, -, -, hout⟩ := try_queue_ok_shape _ _ _ _ _ _ _ _ h
      rw [hout]
      simp

theorem connections_loop_mem (secEnc : Str) :
    ∀ (n : Nat) (wm : List (Str × Counter)) (s : List Nat) (p : Str × Str),
      p ∈ (connections_loop secEnc n wm s).1 →
      ∃ wk ∈ wm.map Prod.fst, p = (secEnc, decode_db_field_name wk) := by
  intro n
  induction n with
  | zero => intro wm s p hp; simp [connections_loop] at hp
  | succ n ih =>
    intro wm s p hp
    rw [connections_loop] at hp
    split at hp
    · simp at hp
    · rcases hch : choose_from_frequency_map wm (s.headD 0) with _ | sel
      · rw [hch] at hp; simp at hp
      · rw [hch] at hp
        dsimp only at hp
        rcases List.mem_cons.mp hp with h | h
        · exact ⟨sel, choose_mem wm _ sel hch, h⟩
        · obtain ⟨wk, hwk, hpe⟩ := ih (eraseA sel wm) (s.drop 1) p h
          refine ⟨wk, ?_, hpe⟩
          obtain ⟨e, he, hfst⟩ := List.mem_map.mp hwk
          exact hfst ▸ List.mem_map_of_mem Prod.fst ((mem_eraseA _ _ _).mp he).1

theorem get_connections_mem (chain : TripletMarkovChain) (pair : Str × Str) (s : List Nat) :
    ∀ p ∈ (get_connections_in_weighted_random_order chain pair s).1,
      ∃ wk, wk ∈ ((lookupA (pair_to_string pair) chain.data).getD []).map Prod.fst ∧
        p = (encode_db_field_name pair.2, decode_db_field_name wk) := by
  intro p hp
  unfold get_connections_in_weighted_random_order at hp
  rcases hl : lookupA (pair_to_string pair) chain.data with _ | wm
  · rw [hl] at hp; simp at hp
  · rw [hl] at hp
    obtain ⟨wk, hwk, hpe⟩ := connections_loop_mem _ _ wm s p hp
    exact ⟨wk, by simpa using hwk, hpe⟩

theorem generate_internal_eps_ok (chain : TripletMarkovChain)
    (lr : Option LengthRequirement) (hg : gen_seed_inv chain) :
    ∀ (fuel : Nat) (len : Int) (s : List Nat) (out : List Str) (s2 : List Nat),
      generate_internal chain lr fuel (([] : Str), ([] : Str)) len s = (.ok out, s2) →
      out ≠ [] := by
  intro fuel len s out s2 h
  cases fuel with
  | zero => simp [generate_internal] at h
  | succ n =>
    rw [generate_internal] at h
    by_cases hp : prune_check lr ((([] : Str), ([] : Str)).1 != [] &&
        (([] : Str), ([] : Str)).2 == []) len = true
    · rw [if_pos hp] at h
      simp at h
    · rw [if_neg hp] at h
      rw [show (((([] : Str), ([] : Str)).1 != [] && (([] : Str), ([] : Str)).2 == []))
        = false from rfl] at h
      rw [if_neg (by simp)] at h
      dsimp only at h
      obtain ⟨p, s3, tail, s4, hpq, hnx, hout⟩ := try_queue_ok_shape _ _ _ _ _ _ _ _ h
      obtain ⟨wk, hwk, hpe⟩ := get_connections_mem chain ([], []) s p hpq
      have hwkne : wk ≠ [] := by
        obtain ⟨e, he, hfst⟩ := List.mem_map.mp hwk
        exact hfst ▸ hg.1 e he
      have hp2 : p.2 ≠ [] := by
        rw [hpe]
        simpa using fun hcon => hwkne ((decode_nil_iff wk).mp hcon)
      have htail := generate_internal_ok_real chain lr n p _ s3 tail s4 hnx hp2
      rw [hout]
      simpa using htail

theorem mem_map_fst_eraseA {α β : Type} [DecidableEq α] (m : List (α × β)) (k : α) (x : α)
    (h : x ∈ (eraseA k m).map Prod.fst) : x ∈ m.map Prod.fst := by
  obtain ⟨e, he, hfst⟩ := List.mem_map.mp h
  exact hfst ▸ List.mem_map_of_mem Prod.fst ((mem_eraseA _ _ _).mp he).1

theorem starts_loop_ok_start (chain : TripletMarkovChain)
    (lr : Option LengthRequirement) (fuel : Nat) :
    ∀ (n : Nat) (starts : List ((Str × Str) × Counter)) (s : List Nat) (v : List Str),
      starts_loop chain lr fuel n starts s = .ok v →
      ∃ start s1 s2, start ∈ starts.map Prod.fst ∧
        generate_internal chain lr fuel start 0 s1 = (.ok v, s2) := by
  intro n
  induction n with
  | zero => intro starts s v h; simp [starts_loop] at h
  | succ n ih =>
    intro starts s v h
    simp only [starts_loop] at h
    split at h
    · simp at h
    · split at h
      · simp at h
      · rename_i st hchoose
        rcases hgen : generate_internal chain lr fuel st 0 (s.drop 1) with ⟨res, sr⟩
        rw [hgen] at h
        cases res with
        | ok path =>
          simp at h
          exact ⟨st, s.drop 1, sr, choose_mem starts _ st hchoose, by rw [hgen, h]⟩
        | error e =>
          obtain ⟨st2, s1, s2, hmem, hint⟩ := ih _ _ _ h
          exact ⟨st2, s1, s2, mem_map_fst_eraseA _ _ _ hmem, hint⟩

theorem foldl_insertA_mem {α β γ : Type} [DecidableEq α] (f : γ → α) (g : γ → β) :
    ∀ (ks : List γ) (init : List (α × β)) (p : α),
      p ∈ ((ks.foldl (fun fm key => insertA (f key) (g key) fm) init).map Prod.fst) →
      p ∈ init.map Prod.fst ∨ ∃ k ∈ ks, p = f k := by
  intro ks
  induction ks with
  | nil => intro init p hp; left; exact hp
  | cons k rest ih =>
    intro init p hp
    rw [List.foldl_cons] at hp
    rcases ih (insertA (f k) (g k) init) p hp with h | ⟨k2, hk2, hpe⟩
    · obtain ⟨e, he, hfst⟩ := List.mem_map.mp h
      rcases mem_insertA _ _ _ _ he with h2 | h2
      · right
        refine ⟨k, List.mem_cons_self _ _, ?_⟩
        rw [← hfst, h2]
      · left
        exact hfst ▸ List.mem_map_of_mem Prod.fst h2
    · exact Or.inr ⟨k2, List.mem_cons_of_mem _ hk2, hpe⟩

theorem generate_ok_nonempty_of_inv (chain : TripletMarkovChain) (hg : gen_seed_inv chain) :
    ∀ (seed : Option Str) (lr : Option LengthRequirement) (fuel : Nat) (s : List Nat)
      (seq : List Str),
      generate chain seed lr fuel s = .ok seq → seq ≠ [] := by
  intro seed lr fuel s seq h
  unfold generate at h
  split at h
  · simp at h
  · split at h
    · simp at h
    · cases seed with
      | some w =>
        dsimp only at h
        cases hlook : lookupA (encode_db_field_name (to_lowercase w)) chain.meta with
        | none => rw [hlook] at h; simp at h
        | some key_set =>
          rw [hlook] at h
          obtain ⟨start, s1, s2, hmem, hint⟩ := starts_loop_ok_start chain lr fuel _ _ _ seq h
          rcases foldl_insertA_mem string_to_pair _ key_set [] start hmem with h2 | ⟨k, hk, hpe⟩
          · simp at h2
          · have hk2 : (string_to_pair k).2 ≠ [] :=
              (hg.2 (encode_db_field_name (to_lowercase w), key_set)
                (lookupA_mem _ _ _ hlook)).2 k hk
            refine generate_internal_ok_real chain lr fuel start 0 s1 seq s2 hint ?_
            rw [hpe]
            exact hk2
      | none =>
        obtain ⟨start, s1, s2, hmem, hint⟩ := starts_loop_ok_start chain lr fuel _ _ _ seq h
        simp at hmem
        subst hmem
        exact generate_internal_eps_ok chain lr hg fuel 0 s1 seq s2 hint

/-- `C10`: on any chain built only through `add_message` (starting from the
default empty chain), every `ok` result of `generate` — for every seed,
length requirement, and outcome of the random draws — is a non-empty token
sequence. -/
theorem C10_generated_sequences_nonempty (texts : List Str) (seed : Option Str)
    (lr : Option LengthRequirement) (fuel : Nat) (s : List Nat) (seq : List Str)
    (h : generate (texts.foldl add_message default_chain) seed lr fuel s = .ok seq) :
    seq ≠ [] :=
  generate_ok_nonempty_of_inv (texts.foldl add_message default_chain) (gen_inv_foldl texts)
    seed lr fuel s seq h

/-- `C10` witness: the chain trained with `"one two"` generates the
non-empty sequence `["one", "two"]`. -/
theorem C10_witness : (strL "one" :: strL "two" :: []) ≠ ([] : List Str) :=
  C10_generated_sequences_nonempty [strL "one two"] none none 10 [0, 0, 0, 0, 0, 0]
    (strL "one" :: strL "two" :: []) (by decide)

end Markov
